import Mathlib

/-!
# gistory: deduplication, three-tier ranking and match highlighting

A shallow embedding of the pure core of `main.go`:

* `deduplicateHistory`   (main.go 76-90)
* `filterAndSortCommands` (main.go 199-228)
* `fuzzyMatch`            (main.go 230-238)
* `highlightMatches`      (main.go 261-284)

A Go `string` is a sequence of bytes, `len` is the number of bytes and `s[i]`
is the byte at offset `i`; it is embedded as a list of byte values.  An index
expression that Go would reject with an index-out-of-range failure makes the
embedded function return `none`.

The library functions the core calls (`strings.ToLower`, `strings.HasPrefix`,
`strings.Contains`) are embedded from the Go standard library.  The Unicode case
table behind `unicode.ToLower` is taken as a parameter `lr` (a map on runes):
every universally quantified statement holds for every such map.
-/

namespace Gistory

/-! ## Go strings -/

/-- A Go string: an immutable sequence of bytes. -/
abbrev GoString := List Nat

/-- The bytes of an ASCII literal. -/
def ascii (s : String) : GoString := s.data.map Char.toNat

/-- Every byte of the string is below `utf8.RuneSelf`. -/
def isASCII (s : GoString) : Bool := s.all (fun c => decide (c < 0x80))

/-! ## The standard-library functions used by the core -/

/-- The rune `utf8.RuneError` (U+FFFD). -/
def RuneError : Nat := 0xFFFD

/-- Byte `b` lies in the closed range `lo..hi`. -/
def inRange (lo hi b : Nat) : Bool := decide (lo ≤ b) && decide (b ≤ hi)

/-- `utf8.DecodeRuneInString`: the first rune of `s` and its width in bytes.
An ill-formed or truncated sequence decodes as `(RuneError, 1)`. -/
def decodeRune : GoString → Nat × Nat
  | [] => (RuneError, 0)
  | b0 :: rest =>
    if b0 < 0x80 then (b0, 1)
    else if inRange 0xC2 0xDF b0 then
      match rest with
      | b1 :: _ =>
        if inRange 0x80 0xBF b1 then ((b0 % 0x20) * 0x40 + b1 % 0x40, 2)
        else (RuneError, 1)
      | [] => (RuneError, 1)
    else if inRange 0xE0 0xEF b0 then
      match rest with
      | b1 :: b2 :: _ =>
        if inRange (if b0 = 0xE0 then 0xA0 else 0x80) (if b0 = 0xED then 0x9F else 0xBF) b1
            && inRange 0x80 0xBF b2 then
          ((b0 % 0x10) * 0x1000 + (b1 % 0x40) * 0x40 + b2 % 0x40, 3)
        else (RuneError, 1)
      | _ => (RuneError, 1)
    else if inRange 0xF0 0xF4 b0 then
      match rest with
      | b1 :: b2 :: b3 :: _ =>
        if inRange (if b0 = 0xF0 then 0x90 else 0x80) (if b0 = 0xF4 then 0x8F else 0xBF) b1
            && inRange 0x80 0xBF b2 && inRange 0x80 0xBF b3 then
          ((b0 % 0x08) * 0x40000 + (b1 % 0x40) * 0x1000 + (b2 % 0x40) * 0x40 + b3 % 0x40, 4)
        else (RuneError, 1)
      | _ => (RuneError, 1)
    else (RuneError, 1)

/-- `utf8.AppendRune`: the UTF-8 encoding of rune `r`; a surrogate or a value
above `utf8.MaxRune` is written as `RuneError`. -/
def encodeRune (r : Nat) : GoString :=
  if r ≤ 0x7F then [r]
  else if r ≤ 0x7FF then [0xC0 + r / 0x40, 0x80 + r % 0x40]
  else if 0x10FFFF < r ∨ (0xD800 ≤ r ∧ r ≤ 0xDFFF) then [0xEF, 0xBF, 0xBD]
  else if r ≤ 0xFFFF then [0xE0 + r / 0x1000, 0x80 + (r / 0x40) % 0x40, 0x80 + r % 0x40]
  else [0xF0 + r / 0x40000, 0x80 + (r / 0x1000) % 0x40, 0x80 + (r / 0x40) % 0x40,
        0x80 + r % 0x40]

/-- The loop of `strings.Map`: the string is read rune by rune (`for _, c := range s`)
and the encoding of `mapping c` is written for each.  `skip` counts the bytes still
to pass over that belong to the rune decoded last. -/
def mapLoop (mapping : Nat → Nat) : GoString → Nat → GoString
  | [], _ => []
  | _ :: rest, skip + 1 => mapLoop mapping rest skip
  | b :: rest, 0 =>
    encodeRune (mapping (decodeRune (b :: rest)).1)
      ++ mapLoop mapping rest ((decodeRune (b :: rest)).2 - 1)

/-- `strings.Map` for a mapping that never returns a negative rune. -/
def Map (mapping : Nat → Nat) (s : GoString) : GoString := mapLoop mapping s 0

/-- The ASCII branch of `strings.ToLower`: `'A'..'Z'` are moved by `'a' - 'A'`. -/
def lowerByte (c : Nat) : Nat := if 0x41 ≤ c ∧ c ≤ 0x5A then c + 0x20 else c

/-- `strings.ToLower`: byte-wise on an all-ASCII string, otherwise
`strings.Map(unicode.ToLower, s)`; `lr` stands for `unicode.ToLower`. -/
def ToLower (lr : Nat → Nat) (s : GoString) : GoString :=
  if isASCII s then s.map lowerByte else Map lr s

/-- An excerpt of `unicode.ToLower`: the ASCII branch in full, and the rows of the
Unicode case table for U+00C0..U+00DE (Latin-1 capitals), U+0130 (capital I with
dot above, lower case U+0069) and U+212A (Kelvin sign, lower case U+006B).  On every
other rune it is the identity, which is not the value of `unicode.ToLower` at the
other cased runes (U+212B or U+03A3, say).  It is used only to evaluate the code at
concrete inputs made of ASCII bytes, U+0130 and U+212A; the general statements are
about every rune map `lr`. -/
def unicodeToLower (r : Nat) : Nat :=
  if r ≤ 0x7F then lowerByte r
  else if 0xC0 ≤ r ∧ r ≤ 0xDE ∧ r ≠ 0xD7 then r + 0x20
  else if r = 0x130 then 0x69
  else if r = 0x212A then 0x6B
  else r

/-- `strings.HasPrefix`: `len(s) >= len(prefix) && s[:len(prefix)] == prefix`. -/
def HasPrefix (s pre : GoString) : Bool :=
  decide (pre.length ≤ s.length) && (s.take pre.length == pre)

/-- The search of `strings.Index` started at offset `i`: the first offset at which
`substr` begins, or `-1`. -/
def indexFrom (substr : GoString) : GoString → Nat → Int
  | [], i => if substr = [] then (i : Int) else -1
  | c :: rest, i => if HasPrefix (c :: rest) substr then (i : Int) else indexFrom substr rest (i + 1)

/-- `strings.Index`. -/
def Index (s substr : GoString) : Int := indexFrom substr s 0

/-- `strings.Contains`: `Index(s, substr) >= 0`. -/
def Contains (s substr : GoString) : Bool := decide (0 ≤ Index s substr)

/-! ## deduplicateHistory -/

/-- The loop of `deduplicateHistory`.  The first argument lists `history[i]` for
`i = len(history) - 1` down to `0`; `seen` is the map `map[string]bool`, whose
value at an absent key is `false`. -/
def dedupLoop : List GoString → (GoString → Bool) → List GoString → List GoString
  | [], _, result => result
  | h :: rest, seen, result =>
    if !seen h then dedupLoop rest (Function.update seen h true) (result ++ [h])
    else dedupLoop rest seen result

/-- `deduplicateHistory` (main.go 76-90). -/
def deduplicateHistory (history : List GoString) : List GoString :=
  dedupLoop history.reverse (fun _ => false) []

/-! ## fuzzyMatch -/

/-- The loop of `fuzzyMatch`: the first list is `text[i:]`, the result is the value
of `patternIdx` when the loop ends. -/
def fuzzyMatchLoop (pattern : GoString) : GoString → Nat → Nat
  | [], patternIdx => patternIdx
  | c :: rest, patternIdx =>
    if patternIdx < pattern.length then
      if pattern[patternIdx]? = some c then fuzzyMatchLoop pattern rest (patternIdx + 1)
      else fuzzyMatchLoop pattern rest patternIdx
    else patternIdx

/-- `fuzzyMatch` (main.go 230-238). -/
def fuzzyMatch (text pattern : GoString) : Bool :=
  fuzzyMatchLoop pattern text 0 == pattern.length

/-! ## filterAndSortCommands -/

/-- The `for _, cmd := range history` loop of `filterAndSortCommands`, carrying
`prefixMatches`, `substringMatches` and `fuzzyMatches`. -/
def classifyLoop (lr : Nat → Nat) (lowerQuery : GoString) :
    List GoString → List GoString → List GoString → List GoString →
      List GoString × List GoString × List GoString
  | [], pm, sm, fm => (pm, sm, fm)
  | cmd :: rest, pm, sm, fm =>
    if HasPrefix (ToLower lr cmd) lowerQuery then
      classifyLoop lr lowerQuery rest (pm ++ [cmd]) sm fm
    else if Contains (ToLower lr cmd) lowerQuery then
      classifyLoop lr lowerQuery rest pm (sm ++ [cmd]) fm
    else if fuzzyMatch (ToLower lr cmd) lowerQuery then
      classifyLoop lr lowerQuery rest pm sm (fm ++ [cmd])
    else classifyLoop lr lowerQuery rest pm sm fm

/-- `filterAndSortCommands` (main.go 199-228). -/
def filterAndSortCommands (lr : Nat → Nat) (history : List GoString) (query : GoString) :
    List GoString :=
  if query = [] then history
  else
    match classifyLoop lr (ToLower lr query) history [] [] [] with
    | (pm, sm, fm) => pm ++ sm ++ fm

/-! ## highlightMatches -/

/-- The open marker written before a matched byte. -/
def openTok : GoString := ascii "[#9664c8::b]"

/-- The close marker written after a matched byte. -/
def closeTok : GoString := ascii "[white::-]"

/-- The loop of `highlightMatches`.  The first list is `text[i:]`; the reads
`lowerText[i]` and `lowerPattern[patternIdx]` are index expressions and fail when
the index is not below the length.  `lowerText[i]` is read only when
`patternIdx < len(lowerPattern)` (the `&&` short-circuits). -/
def highlightLoop (lowerText lowerPattern : GoString) :
    GoString → Nat → Nat → GoString → Option GoString
  | [], _, _, result => some result
  | c :: rest, i, patternIdx, result =>
    if patternIdx < lowerPattern.length then
      match lowerText[i]?, lowerPattern[patternIdx]? with
      | some a, some b =>
        if a = b then
          highlightLoop lowerText lowerPattern rest (i + 1) (patternIdx + 1)
            (result ++ openTok ++ [c] ++ closeTok)
        else highlightLoop lowerText lowerPattern rest (i + 1) patternIdx (result ++ [c])
      | _, _ => none
    else highlightLoop lowerText lowerPattern rest (i + 1) patternIdx (result ++ [c])

/-- `highlightMatches` (main.go 261-284); `none` is an index-out-of-range failure. -/
def highlightMatches (lr : Nat → Nat) (text pattern : GoString) : Option GoString :=
  if pattern = [] then some text
  else highlightLoop (ToLower lr text) (ToLower lr pattern) text 0 0 []

/-! ## Vocabulary of the specification -/

/-- The three match tiers. -/
inductive Tier where
  | Prefix
  | Substring
  | Subsequence
  deriving DecidableEq

/-- The tier of entry `e` for query `q`: the first of the three tests that
succeeds on the lowercased entry and the lowercased query; `none` is a non-match. -/
def tier (lr : Nat → Nat) (e q : GoString) : Option Tier :=
  if HasPrefix (ToLower lr e) (ToLower lr q) then some Tier.Prefix
  else if Contains (ToLower lr e) (ToLower lr q) then some Tier.Substring
  else if fuzzyMatch (ToLower lr e) (ToLower lr q) then some Tier.Subsequence
  else none

/-- Rank of a tier: Prefix above Substring above Subsequence above a non-match. -/
def tierRank : Option Tier → Nat
  | some Tier.Prefix => 3
  | some Tier.Substring => 2
  | some Tier.Subsequence => 1
  | none => 0

/-- The entries of `C` whose tier for `q` is `T`, in the order of `C`. -/
def inTier (lr : Nat → Nat) (q : GoString) (T : Tier) (C : List GoString) : List GoString :=
  C.filter (fun e => decide (tier lr e q = some T))

/-! ## Test data -/

/-- The history of `TestFilterHistorySorting` (filter_test.go 9-17). -/
def sortingHistory : List GoString :=
  [ascii "history command", ascii "git push", ascii "show history", ascii "historical data",
   ascii "git pull", ascii "bash history file", ascii "git add ."]

/-- The history of `TestFilterHistoryFuzzyMatches` (filter_test.go 66-72). -/
def fuzzyHistory : List GoString :=
  [ascii "git push", ascii "git pull", ascii "go install tools",
   ascii "gradle integration test", ascii "git commit"]

/-! ## Vocabulary for the annotated string -/

/-- What the loop of `highlightMatches` writes for the byte `c`: the byte between the
two markers when it is matched (`w = true`), the byte alone otherwise. -/
def piece (w : Bool) (c : Nat) : GoString :=
  if w then openTok ++ [c] ++ closeTok else [c]

/-- The string written for a text whose bytes carry a matched flag each. -/
def render : List (Bool × Nat) → GoString
  | [] => []
  | p :: ps => piece p.1 p.2 ++ render ps

/-- The number of offsets of `s` at which `tok` begins. -/
def occurrences (tok : GoString) : GoString → Nat
  | [] => 0
  | c :: s => (if HasPrefix (c :: s) tok then 1 else 0) + occurrences tok s

/-- The markers of `out` are paired: every occurrence of the open token is followed
by exactly one byte and then the close token, every occurrence of the close token
is preceded by an open token and one byte, and the two tokens occur equally often. -/
def MarkersPaired (out : GoString) : Prop :=
  (∀ pre suf : GoString, out = pre ++ openTok ++ suf →
      ∃ (c : Nat) (rest : GoString), suf = c :: (closeTok ++ rest)) ∧
  (∀ pre suf : GoString, out = pre ++ closeTok ++ suf →
      ∃ (pre' : GoString) (c : Nat), pre = pre' ++ openTok ++ [c]) ∧
  occurrences openTok out = occurrences closeTok out

/-- The number of bytes that carry the matched flag. -/
def marked (ps : List (Bool × Nat)) : Nat := (ps.filter (fun p => p.1)).length

/-! # Proofs -/

/-! ## Ranking -/

/-- The loop adds to each of its three lists the entries of that tier, in order. -/
theorem classifyLoop_eq (lr : Nat → Nat) (q : GoString) (C pm sm fm : List GoString) :
    classifyLoop lr (ToLower lr q) C pm sm fm =
      (pm ++ inTier lr q Tier.Prefix C, sm ++ inTier lr q Tier.Substring C,
        fm ++ inTier lr q Tier.Subsequence C) := by
  induction C generalizing pm sm fm with
  | nil => simp [classifyLoop, inTier]
  | cons cmd rest ih =>
    unfold classifyLoop
    by_cases h1 : HasPrefix (ToLower lr cmd) (ToLower lr q) = true
    · simp [h1, ih, inTier, tier]
    · by_cases h2 : Contains (ToLower lr cmd) (ToLower lr q) = true
      · simp [h1, h2, ih, inTier, tier]
      · by_cases h3 : fuzzyMatch (ToLower lr cmd) (ToLower lr q) = true
        · simp [h1, h2, h3, ih, inTier, tier]
        · simp [h1, h2, h3, ih, inTier, tier]

/-- For a non-empty query the result is the three tier blocks of the corpus, in tier order. -/
theorem filterAndSortCommands_eq (lr : Nat → Nat) (C : List GoString) (q : GoString)
    (hq : q ≠ []) :
    filterAndSortCommands lr C q =
      inTier lr q Tier.Prefix C ++ inTier lr q Tier.Substring C
        ++ inTier lr q Tier.Subsequence C := by
  simp [filterAndSortCommands, hq, classifyLoop_eq]

/-- Membership in a tier block. -/
theorem mem_inTier {lr : Nat → Nat} {q : GoString} {T : Tier} {C : List GoString}
    {e : GoString} : e ∈ inTier lr q T C ↔ e ∈ C ∧ tier lr e q = some T := by
  simp [inTier]

/-- Selecting tier `T` from the block of tier `U` gives the block back, or nothing. -/
theorem inTier_inTier (lr : Nat → Nat) (q : GoString) (T U : Tier) (C : List GoString) :
    inTier lr q T (inTier lr q U C) = if T = U then inTier lr q U C else [] := by
  unfold inTier
  rw [List.filter_filter]
  split
  · next h =>
    subst h
    simp
  · next h =>
    rw [List.filter_eq_nil_iff]
    intro e _
    simp only [Bool.and_eq_true, decide_eq_true_eq, not_and]
    intro h1 h2
    rw [h1] at h2
    exact h (Option.some.inj h2)

/-- Tier selection distributes over concatenation. -/
theorem inTier_append (lr : Nat → Nat) (q : GoString) (T : Tier) (C D : List GoString) :
    inTier lr q T (C ++ D) = inTier lr q T C ++ inTier lr q T D := by
  simp [inTier]


/-- Along the three blocks the tier rank never increases. -/
theorem pairwise_rank (lr : Nat → Nat) (C : List GoString) (q : GoString) :
    (inTier lr q Tier.Prefix C ++ inTier lr q Tier.Substring C
        ++ inTier lr q Tier.Subsequence C).Pairwise
      (fun a b => tierRank (tier lr b q) ≤ tierRank (tier lr a q)) := by
  have same : ∀ (T : Tier), (inTier lr q T C).Pairwise
      (fun a b => tierRank (tier lr b q) ≤ tierRank (tier lr a q)) := by
    intro T
    rw [List.pairwise_iff_forall_sublist]
    intro a b hab
    have ha : a ∈ inTier lr q T C := hab.subset (by simp)
    have hb : b ∈ inTier lr q T C := hab.subset (by simp)
    rw [(mem_inTier.1 ha).2, (mem_inTier.1 hb).2]
  rw [List.pairwise_append, List.pairwise_append]
  refine ⟨⟨same _, same _, ?_⟩, same _, ?_⟩
  · intro a ha b hb
    rw [(mem_inTier.1 ha).2, (mem_inTier.1 hb).2]
    decide
  · intro a ha b hb
    rw [(mem_inTier.1 hb).2]
    rcases List.mem_append.1 ha with ha | ha <;> rw [(mem_inTier.1 ha).2] <;> decide

/-- Claim C1 (tier order of the ranked result).  For a non-empty query `q` every entry
of `filterAndSortCommands C q` has a tier (it is not a non-match), and for positions
`i < j` of the result the tier of `result[i]` ranks at least as high as the tier of
`result[j]`, with Prefix above Substring above Subsequence: an entry that follows is
a Prefix entry only if the earlier one is, and no Subsequence entry precedes a
Substring entry. -/
theorem filterAndSortCommands_tier_order (lr : Nat → Nat) (C : List GoString) (q : GoString)
    (hq : q ≠ []) :
    (∀ e ∈ filterAndSortCommands lr C q, tier lr e q ≠ none) ∧
    (∀ (i j : Nat) (a b : GoString), i < j → (filterAndSortCommands lr C q)[i]? = some a →
        (filterAndSortCommands lr C q)[j]? = some b →
        tierRank (tier lr b q) ≤ tierRank (tier lr a q)) ∧
    (∀ (i j : Nat) (a b : GoString), i < j → (filterAndSortCommands lr C q)[i]? = some a →
        (filterAndSortCommands lr C q)[j]? = some b →
        (tier lr b q = some Tier.Prefix → tier lr a q = some Tier.Prefix) ∧
        (tier lr b q = some Tier.Substring → tier lr a q ≠ some Tier.Subsequence)) := by
  have key : ∀ (i j : Nat) (a b : GoString), i < j → (filterAndSortCommands lr C q)[i]? = some a →
        (filterAndSortCommands lr C q)[j]? = some b →
        tierRank (tier lr b q) ≤ tierRank (tier lr a q) := by
    intro i j a b hij hi hj
    rw [filterAndSortCommands_eq lr C q hq] at hi hj
    have hp := pairwise_rank lr C q
    rw [List.pairwise_iff_getElem] at hp
    obtain ⟨hi', rfl⟩ := List.getElem?_eq_some.1 hi
    obtain ⟨hj', rfl⟩ := List.getElem?_eq_some.1 hj
    exact hp i j hi' hj' hij
  have nonmatch : ∀ e ∈ filterAndSortCommands lr C q, tier lr e q ≠ none := by
    intro e he
    rw [filterAndSortCommands_eq lr C q hq] at he
    simp only [List.mem_append, mem_inTier] at he
    rcases he with (he | he) | he <;> simp [he.2]
  refine ⟨nonmatch, key, ?_⟩
  intro i j a b hij hi hj
  have hk := key i j a b hij hi hj
  have ha := nonmatch a (List.getElem?_mem hi)
  constructor
  · intro hb
    rw [hb] at hk
    revert hk ha
    cases tier lr a q with
    | none => simp
    | some T => cases T <;> simp [tierRank]
  · intro hb
    rw [hb] at hk
    revert hk ha
    cases tier lr a q with
    | none => simp
    | some T => cases T <;> simp [tierRank]

/-- Claim C2 (stability and per-tier completeness).  For a non-empty query `q` the
result is the Prefix entries of `C`, then its Substring entries, then its Subsequence
entries, each block in the order of `C`; and for each tier `T` the entries of the
result in tier `T` are the entries of `C` in tier `T`, in the same order and with the
same multiplicity. -/
theorem filterAndSortCommands_stable (lr : Nat → Nat) (C : List GoString) (q : GoString)
    (hq : q ≠ []) :
    filterAndSortCommands lr C q =
        C.filter (fun e => decide (tier lr e q = some Tier.Prefix))
          ++ C.filter (fun e => decide (tier lr e q = some Tier.Substring))
          ++ C.filter (fun e => decide (tier lr e q = some Tier.Subsequence)) ∧
    ∀ T : Tier, (filterAndSortCommands lr C q).filter (fun e => decide (tier lr e q = some T))
        = C.filter (fun e => decide (tier lr e q = some T)) := by
  refine ⟨filterAndSortCommands_eq lr C q hq, ?_⟩
  intro T
  rw [filterAndSortCommands_eq lr C q hq]
  change inTier lr q T _ = inTier lr q T C
  rw [inTier_append, inTier_append, inTier_inTier, inTier_inTier, inTier_inTier]
  cases T <;> simp

/-- Claim C6 (identity on the empty query).  `filterAndSortCommands C ""` is `C`, for
every corpus, with or without duplicates. -/
theorem filterAndSortCommands_empty_query (lr : Nat → Nat) (C : List GoString) :
    filterAndSortCommands lr C [] = C := by
  simp [filterAndSortCommands]


/-- Blocks of different tiers share no entry. -/
theorem inTier_disjoint (lr : Nat → Nat) (q : GoString) (C : List GoString) {T U : Tier}
    (h : T ≠ U) : (inTier lr q T C).Disjoint (inTier lr q U C) := by
  intro e h1 h2
  have := (mem_inTier.1 h1).2.symm.trans (mem_inTier.1 h2).2
  exact h (Option.some.inj this)

/-- A block of a duplicate-free corpus is duplicate-free. -/
theorem inTier_nodup (lr : Nat → Nat) (q : GoString) (T : Tier) {C : List GoString}
    (h : C.Nodup) : (inTier lr q T C).Nodup := h.filter _

/-- Claim C10 (no entry is returned twice).  For a corpus `C` without equal entries and
any query `q`, empty or not, `filterAndSortCommands C q` has no two equal entries; the
three tier lists built by the loop are each duplicate-free and pairwise disjoint. -/
theorem filterAndSortCommands_nodup (lr : Nat → Nat) (C : List GoString) (q : GoString)
    (hC : C.Nodup) :
    (filterAndSortCommands lr C q).Nodup ∧
    ((classifyLoop lr (ToLower lr q) C [] [] []).1.Nodup ∧
      (classifyLoop lr (ToLower lr q) C [] [] []).2.1.Nodup ∧
      (classifyLoop lr (ToLower lr q) C [] [] []).2.2.Nodup ∧
      (classifyLoop lr (ToLower lr q) C [] [] []).1.Disjoint
        (classifyLoop lr (ToLower lr q) C [] [] []).2.1 ∧
      (classifyLoop lr (ToLower lr q) C [] [] []).1.Disjoint
        (classifyLoop lr (ToLower lr q) C [] [] []).2.2 ∧
      (classifyLoop lr (ToLower lr q) C [] [] []).2.1.Disjoint
        (classifyLoop lr (ToLower lr q) C [] [] []).2.2) := by
  have parts : (inTier lr q Tier.Prefix C ++ inTier lr q Tier.Substring C
      ++ inTier lr q Tier.Subsequence C).Nodup := by
    rw [List.nodup_append, List.nodup_append]
    refine ⟨⟨inTier_nodup lr q _ hC, inTier_nodup lr q _ hC,
      inTier_disjoint lr q C (by decide)⟩, inTier_nodup lr q _ hC, ?_⟩
    rw [List.disjoint_append_left]
    exact ⟨inTier_disjoint lr q C (by decide), inTier_disjoint lr q C (by decide)⟩
  constructor
  · by_cases hq : q = []
    · subst hq
      simpa [filterAndSortCommands] using hC
    · rw [filterAndSortCommands_eq lr C q hq]
      exact parts
  · rw [classifyLoop_eq]
    simp only [List.nil_append]
    exact ⟨inTier_nodup lr q _ hC, inTier_nodup lr q _ hC, inTier_nodup lr q _ hC,
      inTier_disjoint lr q C (by decide), inTier_disjoint lr q C (by decide),
      inTier_disjoint lr q C (by decide)⟩

/-- The cursor reaches the end of the pattern exactly when the unread part of the
pattern is a subsequence of the unread text. -/
theorem fuzzyMatchLoop_eq_length_iff (pattern : GoString) (text : GoString) (p : Nat)
    (hp : p ≤ pattern.length) :
    fuzzyMatchLoop pattern text p = pattern.length ↔ (pattern.drop p).Sublist text := by
  induction text generalizing p with
  | nil =>
    simp only [fuzzyMatchLoop, List.sublist_nil, List.drop_eq_nil_iff]
    omega
  | cons c rest ih =>
    unfold fuzzyMatchLoop
    by_cases hlt : p < pattern.length
    · rw [if_pos hlt, List.drop_eq_getElem_cons hlt, List.getElem?_eq_getElem hlt]
      by_cases hc : pattern[p] = c
      · rw [if_pos (by rw [hc]), ih (p + 1) hlt, hc]
        exact (List.cons_sublist_cons).symm
      · rw [if_neg (by simpa using hc), ih p hp, List.drop_eq_getElem_cons hlt]
        constructor
        · intro h
          exact h.cons c
        · intro h
          cases h with
          | cons _ h => exact h
          | cons₂ _ h => exact absurd rfl hc
    · have : p = pattern.length := by omega
      subst this
      simp

/-- `fuzzyMatch` decides the subsequence relation. -/
theorem fuzzyMatch_iff_sublist (text pattern : GoString) :
    fuzzyMatch text pattern = true ↔ pattern.Sublist text := by
  unfold fuzzyMatch
  rw [beq_iff_eq, fuzzyMatchLoop_eq_length_iff pattern text 0 (Nat.zero_le _)]
  simp

/-- Claim C3 (the greedy scan decides subsequence membership).  `fuzzyMatch text pattern`
is true exactly when there are strictly increasing positions `pos 0 < pos 1 < ...` of
`text`, one for each index of `pattern`, with `text[pos k] = pattern[k]`; and
`fuzzyMatch text ""` is true for every text. -/
theorem fuzzyMatch_iff_subsequence (text pattern : GoString) :
    (fuzzyMatch text pattern = true ↔
      ∃ pos : Fin pattern.length → Fin text.length,
        StrictMono pos ∧ ∀ k, text.get (pos k) = pattern.get k) ∧
    fuzzyMatch text [] = true := by
  constructor
  · rw [fuzzyMatch_iff_sublist, List.sublist_iff_exists_fin_orderEmbedding_get_eq]
    constructor
    · rintro ⟨f, hf⟩
      exact ⟨f, f.strictMono, fun k => (hf k).symm⟩
    · rintro ⟨pos, hmono, hpos⟩
      exact ⟨OrderEmbedding.ofStrictMono pos hmono, fun k => by
        simpa using (hpos k).symm⟩
  · rw [fuzzyMatch_iff_sublist]
    simp

/-- Witness of C1 on the history and query of `TestFilterHistorySorting`. -/
theorem filterAndSortCommands_tier_order_witness :
    ascii "hist" ≠ [] ∧
    filterAndSortCommands unicodeToLower sortingHistory (ascii "hist") =
      [ascii "history command", ascii "historical data", ascii "show history",
       ascii "bash history file"] ∧
    ((∀ e ∈ filterAndSortCommands unicodeToLower sortingHistory (ascii "hist"),
        tier unicodeToLower e (ascii "hist") ≠ none) ∧
     (∀ (i j : Nat) (a b : GoString), i < j →
        (filterAndSortCommands unicodeToLower sortingHistory (ascii "hist"))[i]? = some a →
        (filterAndSortCommands unicodeToLower sortingHistory (ascii "hist"))[j]? = some b →
        tierRank (tier unicodeToLower b (ascii "hist"))
          ≤ tierRank (tier unicodeToLower a (ascii "hist"))) ∧
     (∀ (i j : Nat) (a b : GoString), i < j →
        (filterAndSortCommands unicodeToLower sortingHistory (ascii "hist"))[i]? = some a →
        (filterAndSortCommands unicodeToLower sortingHistory (ascii "hist"))[j]? = some b →
        (tier unicodeToLower b (ascii "hist") = some Tier.Prefix →
          tier unicodeToLower a (ascii "hist") = some Tier.Prefix) ∧
        (tier unicodeToLower b (ascii "hist") = some Tier.Substring →
          tier unicodeToLower a (ascii "hist") ≠ some Tier.Subsequence))) :=
  ⟨by decide, by decide,
    filterAndSortCommands_tier_order unicodeToLower sortingHistory (ascii "hist") (by decide)⟩

/-- Witness of C2 on the history and query of `TestFilterHistoryFuzzyMatches`. -/
theorem filterAndSortCommands_stable_witness :
    ascii "git" ≠ [] ∧
    filterAndSortCommands unicodeToLower fuzzyHistory (ascii "git") =
      [ascii "git push", ascii "git pull", ascii "git commit", ascii "go install tools",
       ascii "gradle integration test"] ∧
    (filterAndSortCommands unicodeToLower fuzzyHistory (ascii "git") =
        fuzzyHistory.filter (fun e => decide (tier unicodeToLower e (ascii "git") = some Tier.Prefix))
          ++ fuzzyHistory.filter
              (fun e => decide (tier unicodeToLower e (ascii "git") = some Tier.Substring))
          ++ fuzzyHistory.filter
              (fun e => decide (tier unicodeToLower e (ascii "git") = some Tier.Subsequence)) ∧
      ∀ T : Tier,
        (filterAndSortCommands unicodeToLower fuzzyHistory (ascii "git")).filter
            (fun e => decide (tier unicodeToLower e (ascii "git") = some T))
          = fuzzyHistory.filter (fun e => decide (tier unicodeToLower e (ascii "git") = some T))) :=
  ⟨by decide, by decide,
    filterAndSortCommands_stable unicodeToLower fuzzyHistory (ascii "git") (by decide)⟩

/-- Witness of C10 on the duplicate-free history of `TestFilterHistoryFuzzyMatches`. -/
theorem filterAndSortCommands_nodup_witness :
    fuzzyHistory.Nodup ∧
    (filterAndSortCommands unicodeToLower fuzzyHistory (ascii "git")).Nodup :=
  ⟨by decide, (filterAndSortCommands_nodup unicodeToLower fuzzyHistory (ascii "git")
    (by decide)).1⟩

/-! ## Deduplication -/

/-- One more line at the far end of the scan is written at the end of the result,
unless it was seen before. -/
theorem dedupLoop_append (xs : List GoString) (a : GoString) (seen : GoString → Bool)
    (result : List GoString) :
    dedupLoop (xs ++ [a]) seen result =
      dedupLoop xs seen result ++ (if seen a = true ∨ a ∈ xs then [] else [a]) := by
  induction xs generalizing seen result with
  | nil =>
    cases h : seen a <;> simp [dedupLoop, h]
  | cons x xs ih =>
    rw [List.cons_append, dedupLoop, dedupLoop]
    cases hx : seen x
    · simp only [Bool.not_false, if_true]
      rw [ih]
      congr 1
      by_cases hax : a = x
      · subst hax
        simp
      · simp [Function.update_noteq hax, hax]
    · simp only [Bool.not_true, Bool.false_eq_true, if_false]
      rw [ih]
      congr 1
      by_cases hax : a = x
      · subst hax
        simp [hx]
      · simp [hax]

/-- The empty log gives the empty corpus. -/
theorem deduplicateHistory_nil : deduplicateHistory [] = [] := rfl

/-- An older line in front of the log goes to the end of the result, if it is new. -/
theorem deduplicateHistory_cons (a : GoString) (L : List GoString) :
    deduplicateHistory (a :: L) = deduplicateHistory L ++ (if a ∈ L then [] else [a]) := by
  unfold deduplicateHistory
  rw [List.reverse_cons, dedupLoop_append]
  simp

/-- The result lists the distinct lines, each at its last occurrence, latest first. -/
theorem deduplicateHistory_eq_reverse_dedup (L : List GoString) :
    deduplicateHistory L = L.dedup.reverse := by
  induction L with
  | nil => rfl
  | cons a L ih =>
    rw [deduplicateHistory_cons, ih]
    by_cases h : a ∈ L
    · simp [h, List.dedup_cons_of_mem h]
    · simp [h, List.dedup_cons_of_not_mem h]

/-- Claim C4 (deduplication keeps exactly one copy of each distinct line).
`deduplicateHistory L` has no two equal entries, a string occurs in it exactly when it
occurs in `L`, and so its length is the number of distinct lines of `L`: 0 for the
empty log and 1 for a non-empty log whose lines are all identical. -/
theorem deduplicateHistory_distinct (L : List GoString) :
    (deduplicateHistory L).Nodup ∧
    (∀ s, s ∈ deduplicateHistory L ↔ s ∈ L) ∧
    (deduplicateHistory L).length = L.toFinset.card ∧
    (L = [] → (deduplicateHistory L).length = 0) ∧
    (L ≠ [] → (∀ x ∈ L, ∀ y ∈ L, x = y) → (deduplicateHistory L).length = 1) := by
  have hlen : (deduplicateHistory L).length = L.toFinset.card := by
    rw [deduplicateHistory_eq_reverse_dedup, List.length_reverse, List.card_toFinset]
  refine ⟨?_, ?_, hlen, ?_, ?_⟩
  · rw [deduplicateHistory_eq_reverse_dedup]
    exact List.nodup_reverse.2 (List.nodup_dedup L)
  · intro s
    rw [deduplicateHistory_eq_reverse_dedup]
    simp
  · rintro rfl
    rfl
  · intro hne hall
    rw [hlen]
    obtain ⟨a, ha⟩ := List.exists_mem_of_ne_nil L hne
    rw [Finset.card_eq_one]
    refine ⟨a, ?_⟩
    ext s
    simp only [List.mem_toFinset, Finset.mem_singleton]
    exact ⟨fun hs => hall s hs a ha, fun hs => hs ▸ ha⟩

/-- Witness of C4 on a log with two repeated lines. -/
theorem deduplicateHistory_distinct_witness :
    deduplicateHistory [ascii "ls", ascii "cd", ascii "ls", ascii "pwd", ascii "cd"]
      = [ascii "cd", ascii "pwd", ascii "ls"] ∧
    (deduplicateHistory [ascii "ls", ascii "cd", ascii "ls", ascii "pwd", ascii "cd"]).length
      = [ascii "ls", ascii "cd", ascii "ls", ascii "pwd", ascii "cd"].toFinset.card :=
  ⟨by decide,
    (deduplicateHistory_distinct
      [ascii "ls", ascii "cd", ascii "ls", ascii "pwd", ascii "cd"]).2.2.1⟩

/-- A last occurrence in `x :: L` of a line that occurs in `L` is a last occurrence
in `L`, one index lower. -/
theorem last_occurrence_tail {x a : GoString} {L : List GoString} {i : Nat}
    (hi : (x :: L)[i]? = some a) (hlast : ∀ k, i < k → (x :: L)[k]? ≠ some a)
    (hmem : a ∈ L) :
    ∃ i', i = i' + 1 ∧ L[i']? = some a ∧ ∀ k, i' < k → L[k]? ≠ some a := by
  cases i with
  | zero =>
    obtain ⟨k, hk⟩ := List.mem_iff_getElem?.1 hmem
    exact absurd (by simpa using hk) (hlast (k + 1) (Nat.succ_pos k))
  | succ i' =>
    refine ⟨i', rfl, by simpa using hi, ?_⟩
    intro k hk
    have := hlast (k + 1) (by omega)
    simpa using this

/-- A line of `x :: L` that does not occur in `L` is `x`, at index 0. -/
theorem occurrence_head {x a : GoString} {L : List GoString} {i : Nat}
    (hi : (x :: L)[i]? = some a) (hmem : a ∉ L) : i = 0 ∧ a = x := by
  cases i with
  | zero => exact ⟨rfl, by simpa using hi.symm⟩
  | succ i' => exact absurd (List.getElem?_mem (by simpa using hi)) hmem

/-- The result has the same lines as the log. -/
theorem mem_deduplicateHistory {L : List GoString} {s : GoString} :
    s ∈ deduplicateHistory L ↔ s ∈ L := by
  rw [deduplicateHistory_eq_reverse_dedup]
  simp

/-- Lines that do not occur in the appended part keep their relative position. -/
theorem before_append_iff {D t : List GoString} {a b : GoString} (ha : a ∉ t) (hb : b ∉ t) :
    (∃ p q : Nat, p < q ∧ (D ++ t)[p]? = some a ∧ (D ++ t)[q]? = some b) ↔
      ∃ p q : Nat, p < q ∧ D[p]? = some a ∧ D[q]? = some b := by
  have key : ∀ (c : GoString) (n : Nat), c ∉ t → ((D ++ t)[n]? = some c ↔ D[n]? = some c) := by
    intro c n hc
    by_cases hn : n < D.length
    · rw [List.getElem?_append_left hn]
    · rw [List.getElem?_append_right (by omega), List.getElem?_eq_none (by omega : D.length ≤ n)]
      constructor
      · intro h
        exact absurd (List.getElem?_mem h) hc
      · intro h
        simp at h
  constructor
  · rintro ⟨p, q, hpq, hp, hq⟩
    exact ⟨p, q, hpq, (key a p ha).1 hp, (key b q hb).1 hq⟩
  · rintro ⟨p, q, hpq, hp, hq⟩
    exact ⟨p, q, hpq, (key a p ha).2 hp, (key b q hb).2 hq⟩

/-- Claim C5 (most recent occurrence first).  Let `i` be the last index at which `a`
occurs in `L` and `j` the last index at which `b` occurs in `L`.  Then `a` stands
before `b` in `deduplicateHistory L` (at positions `p < q`) exactly when `j < i`.
The statement holds for equal `a` and `b` too, where both sides are false. -/
theorem deduplicateHistory_order (L : List GoString) (a b : GoString) (i j : Nat)
    (hi : L[i]? = some a) (hia : ∀ k, i < k → L[k]? ≠ some a)
    (hj : L[j]? = some b) (hjb : ∀ k, j < k → L[k]? ≠ some b) :
    (∃ p q : Nat, p < q ∧ (deduplicateHistory L)[p]? = some a ∧
        (deduplicateHistory L)[q]? = some b) ↔ j < i := by
  induction L generalizing i j with
  | nil => simp at hi
  | cons x L ih =>
    rw [deduplicateHistory_cons]
    by_cases ha : a ∈ L
    · obtain ⟨i', rfl, hi', hia'⟩ := last_occurrence_tail hi hia ha
      by_cases hb : b ∈ L
      · obtain ⟨j', rfl, hj', hjb'⟩ := last_occurrence_tail hj hjb hb
        have hat : a ∉ (if x ∈ L then [] else [x]) := by
          split
          · simp
          · next hx =>
            simp only [List.mem_singleton]
            rintro rfl
            exact hx ha
        have hbt : b ∉ (if x ∈ L then [] else [x]) := by
          split
          · simp
          · next hx =>
            simp only [List.mem_singleton]
            rintro rfl
            exact hx hb
        rw [before_append_iff hat hbt, ih i' j' hi' hia' hj' hjb']
        omega
      · obtain ⟨rfl, rfl⟩ := occurrence_head hj hb
        rw [if_neg hb]
        obtain ⟨p, hp⟩ := List.mem_iff_getElem?.1 (mem_deduplicateHistory.2 ha)
        have hplt : p < (deduplicateHistory L).length := (List.getElem?_eq_some.1 hp).1
        constructor
        · intro _
          omega
        · intro _
          refine ⟨p, (deduplicateHistory L).length, hplt, ?_, ?_⟩
          · rw [List.getElem?_append_left hplt]
            exact hp
          · rw [List.getElem?_append_right (le_refl _)]
            simp
    · obtain ⟨rfl, rfl⟩ := occurrence_head hi ha
      rw [if_neg ha]
      constructor
      · rintro ⟨p, q, hpq, hp, hq⟩
        exfalso
        have hq' : q < (deduplicateHistory L ++ [a]).length := (List.getElem?_eq_some.1 hq).1
        rw [List.length_append, List.length_singleton] at hq'
        have hplt : p < (deduplicateHistory L).length := by omega
        rw [List.getElem?_append_left hplt] at hp
        exact ha (mem_deduplicateHistory.1 (List.getElem?_mem hp))
      · intro h
        omega

/-- Witness of C5: in the log `ls, cd, ls, pwd, cd` the last `cd` is at index 4 and the
last `ls` at index 2. -/
theorem deduplicateHistory_order_witness :
    deduplicateHistory [ascii "ls", ascii "cd", ascii "ls", ascii "pwd", ascii "cd"]
      = [ascii "cd", ascii "pwd", ascii "ls"] ∧
    ((∃ p q : Nat, p < q ∧
        (deduplicateHistory
          [ascii "ls", ascii "cd", ascii "ls", ascii "pwd", ascii "cd"])[p]? = some (ascii "cd") ∧
        (deduplicateHistory
          [ascii "ls", ascii "cd", ascii "ls", ascii "pwd", ascii "cd"])[q]? = some (ascii "ls"))
      ↔ 2 < 4) :=
  ⟨by decide,
    deduplicateHistory_order [ascii "ls", ascii "cd", ascii "ls", ascii "pwd", ascii "cd"]
      (ascii "cd") (ascii "ls") 4 2 (by decide)
      (fun k hk => by
        rw [List.getElem?_eq_none (by simpa using hk)]
        simp)
      (by decide)
      (fun k hk => by
        have h3 : k = 3 ∨ k = 4 ∨ 5 ≤ k := by omega
        rcases h3 with rfl | rfl | h5
        · decide
        · decide
        · rw [List.getElem?_eq_none (by simpa using h5)]
          simp)⟩

/-! ## Highlighting -/

/-- On an all-ASCII string `strings.ToLower` works byte by byte. -/
theorem ToLower_ascii (lr : Nat → Nat) {s : GoString} (h : isASCII s = true) :
    ToLower lr s = s.map lowerByte := by
  simp [ToLower, h]

/-- Lowercasing an all-ASCII string keeps its length. -/
theorem ToLower_ascii_length (lr : Nat → Nat) {s : GoString} (h : isASCII s = true) :
    (ToLower lr s).length = s.length := by
  simp [ToLower_ascii lr h]

/-- `strings.HasPrefix` is the prefix relation on byte sequences. -/
theorem HasPrefix_iff {s pre : GoString} : HasPrefix s pre = true ↔ pre <+: s := by
  unfold HasPrefix
  rw [Bool.and_eq_true, decide_eq_true_eq, beq_iff_eq]
  constructor
  · rintro ⟨_, h⟩
    exact List.prefix_iff_eq_take.2 h.symm
  · intro h
    exact ⟨h.length_le, (List.prefix_iff_eq_take.1 h).symm⟩

/-- While the lowercased text agrees with the lowercased pattern from the cursor on,
the loop wraps byte after byte, and leaves the rest of the text as it is. -/
theorem highlightLoop_agree (lt lp : GoString) (rest : GoString) (i p : Nat) (result : GoString)
    (h : ∀ k, p + k < lp.length → k < rest.length ∧ lt[i + k]? = lp[p + k]?) :
    highlightLoop lt lp rest i p result =
      some (result ++ (rest.take (lp.length - p)).flatMap (fun c => openTok ++ [c] ++ closeTok)
        ++ rest.drop (lp.length - p)) := by
  induction rest generalizing i p result with
  | nil => simp [highlightLoop]
  | cons c rest ih =>
    unfold highlightLoop
    by_cases hp : p < lp.length
    · have h0 := (h 0 (by omega)).2
      simp only [Nat.add_zero] at h0
      rw [if_pos hp, h0, List.getElem?_eq_getElem hp]
      simp only [if_true]
      rw [ih (i + 1) (p + 1) _ (fun k hk => by
        have := h (k + 1) (by omega)
        refine ⟨by simpa using this.1, ?_⟩
        have h2 := this.2
        rw [show i + (k + 1) = i + 1 + k by omega, show p + (k + 1) = p + 1 + k by omega] at h2
        exact h2)]
      have hlen : lp.length - p = (lp.length - (p + 1)) + 1 := by omega
      rw [hlen]
      simp [List.take_succ_cons, List.drop_succ_cons]
    · rw [if_neg hp, ih (i + 1) p _ (fun k hk => by omega)]
      have hlen : lp.length - p = 0 := by omega
      rw [hlen]
      simp

/-- Claim C8 (highlighting a prefix match).  For ASCII `text` and non-empty ASCII
`pattern` such that the lowercased text starts with the lowercased pattern,
`highlightMatches text pattern` returns the first `len(pattern)` bytes of `text`,
each wrapped on its own between the open and the close marker and in its original
case, followed by the rest of `text` unmarked. -/
theorem highlightMatches_prefix_match (lr : Nat → Nat) (text pattern : GoString)
    (ht : isASCII text = true) (hp : isASCII pattern = true) (hne : pattern ≠ [])
    (hpre : HasPrefix (ToLower lr text) (ToLower lr pattern) = true) :
    highlightMatches lr text pattern =
      some ((text.take pattern.length).flatMap (fun c => openTok ++ [c] ++ closeTok)
        ++ text.drop pattern.length) := by
  unfold highlightMatches
  rw [if_neg hne]
  have hpl := ToLower_ascii_length lr hp
  have htl := ToLower_ascii_length lr ht
  obtain ⟨suf, hsuf⟩ := HasPrefix_iff.1 hpre
  rw [highlightLoop_agree (ToLower lr text) (ToLower lr pattern) text 0 0 [] (fun k hk => by
    simp only [Nat.zero_add] at hk ⊢
    constructor
    · have := congrArg List.length hsuf
      rw [List.length_append] at this
      omega
    · rw [← hsuf, List.getElem?_append_left hk])]
  simp [hpl]

/-- Witness of C8: `highlightMatches("git push", "git")`. -/
theorem highlightMatches_prefix_match_witness :
    isASCII (ascii "git push") = true ∧ isASCII (ascii "git") = true ∧ ascii "git" ≠ [] ∧
    HasPrefix (ToLower unicodeToLower (ascii "git push")) (ToLower unicodeToLower (ascii "git"))
      = true ∧
    highlightMatches unicodeToLower (ascii "git push") (ascii "git") =
      some (ascii "[#9664c8::b]g[white::-][#9664c8::b]i[white::-][#9664c8::b]t[white::-] push") :=
  ⟨by decide, by decide, by decide, by decide,
    (highlightMatches_prefix_match unicodeToLower (ascii "git push") (ascii "git")
      (by decide) (by decide) (by decide) (by decide)).trans (by decide)⟩

/-- The bytes of the open marker: `[` followed by bytes other than `[`. -/
theorem openTok_eq : openTok = 91 :: [35, 57, 54, 54, 52, 99, 56, 58, 58, 98, 93] := by decide

/-- The bytes of the close marker: `[` followed by bytes other than `[`. -/
theorem closeTok_eq : closeTok = 91 :: [119, 104, 105, 116, 101, 58, 58, 45, 93] := by decide

/-- The search of `strings.Index` succeeds exactly when `substr` is a contiguous part
of `s`. -/
theorem indexFrom_nonneg_iff (substr s : GoString) (i : Nat) :
    0 ≤ indexFrom substr s i ↔ substr <:+: s := by
  induction s generalizing i with
  | nil =>
    unfold indexFrom
    by_cases h : substr = []
    · simp [h]
    · simp [h]
  | cons c rest ih =>
    unfold indexFrom
    rw [List.infix_cons_iff]
    by_cases h : HasPrefix (c :: rest) substr = true
    · simp [h, HasPrefix_iff.1 h]
    · rw [if_neg h, ih]
      simp [mt HasPrefix_iff.2 h]

/-- `strings.Contains` is the contiguous-sublist relation on byte sequences. -/
theorem Contains_iff {s substr : GoString} : Contains s substr = true ↔ substr <:+: s := by
  simp [Contains, Index, indexFrom_nonneg_iff]

/-- Every string is written by `render` with no byte matched. -/
theorem render_unmarked (s : GoString) : render (s.map (fun c => (false, c))) = s := by
  induction s with
  | nil => rfl
  | cons c s ih => simp [render, piece, ih]

/-- The annotated string is the accumulated string followed by the rendering of the
remaining text under some marking. -/
theorem highlightLoop_render (lt lp : GoString) (rest : GoString) (i p : Nat)
    (result out : GoString) (h : highlightLoop lt lp rest i p result = some out) :
    ∃ ps : List (Bool × Nat), ps.map Prod.snd = rest ∧ out = result ++ render ps := by
  induction rest generalizing i p result with
  | nil =>
    refine ⟨[], rfl, ?_⟩
    simpa [highlightLoop, render] using h.symm
  | cons c rest ih =>
    unfold highlightLoop at h
    split at h
    · split at h
      · split at h
        · obtain ⟨ps, hps, hout⟩ := ih _ _ _ h
          exact ⟨(true, c) :: ps, by simp [hps], by simp [hout, render, piece]⟩
        · obtain ⟨ps, hps, hout⟩ := ih _ _ _ h
          exact ⟨(false, c) :: ps, by simp [hps], by simp [hout, render, piece]⟩
      · exact absurd h (by simp)
    · obtain ⟨ps, hps, hout⟩ := ih _ _ _ h
      exact ⟨(false, c) :: ps, by simp [hps], by simp [hout, render, piece]⟩

/-- Whenever `highlightMatches` returns, the result is the text rendered under some
marking of its bytes. -/
theorem highlightMatches_render (lr : Nat → Nat) (text pattern out : GoString)
    (h : highlightMatches lr text pattern = some out) :
    ∃ ps : List (Bool × Nat), ps.map Prod.snd = text ∧ out = render ps := by
  unfold highlightMatches at h
  split at h
  · refine ⟨text.map (fun c => (false, c)), by simp [Function.comp_def], ?_⟩
    rw [render_unmarked]
    exact (Option.some.inj h).symm
  · obtain ⟨ps, hps, hout⟩ := highlightLoop_render _ _ _ _ _ _ _ h
    exact ⟨ps, hps, by simpa using hout⟩

/-- A stretch without `[` that begins a rendering is a stretch of unmatched text. -/
theorem prefix_of_render (w suf : GoString) (ps : List (Bool × Nat)) (hw : 91 ∉ w)
    (h : render ps = w ++ suf) : w <+: ps.map Prod.snd := by
  induction w generalizing ps with
  | nil => exact List.nil_prefix
  | cons a w ih =>
    cases ps with
    | nil => simp [render] at h
    | cons q ps =>
      obtain ⟨m, c⟩ := q
      cases m with
      | true =>
        exfalso
        simp only [render, piece, if_true, openTok_eq, List.cons_append, List.cons.injEq] at h
        exact hw (by simp [← h.1])
      | false =>
        simp only [render, piece, Bool.false_eq_true, if_false, List.cons_append,
          List.singleton_append, List.cons.injEq] at h
        obtain ⟨rfl, h2⟩ := h
        simp only [List.map_cons]
        rw [List.cons_prefix_cons]
        exact ⟨rfl, ih ps (fun hm => hw (List.mem_cons_of_mem _ hm)) (by simpa using h2)⟩

/-- An occurrence of a `[`-headed token cannot begin inside a stretch without `[`. -/
theorem occurrence_skip (w l t pre suf : GoString) (hw : 91 ∉ w)
    (h : pre ++ (91 :: t) ++ suf = w ++ l) :
    ∃ pre', pre = w ++ pre' ∧ pre' ++ (91 :: t) ++ suf = l := by
  induction w generalizing pre with
  | nil => exact ⟨pre, rfl, by simpa using h⟩
  | cons a w ih =>
    cases pre with
    | nil =>
      simp only [List.nil_append, List.cons_append, List.cons.injEq] at h
      exact absurd (by simp [← h.1]) hw
    | cons x pre =>
      simp only [List.cons_append, List.cons.injEq] at h
      obtain ⟨rfl, h2⟩ := h
      obtain ⟨pre', rfl, h3⟩ := ih pre (fun hm => hw (List.mem_cons_of_mem _ hm))
        (by simpa using h2)
      exact ⟨pre', rfl, h3⟩

/-- Rendering distributes over concatenation. -/
theorem render_append (ps qs : List (Bool × Nat)) :
    render (ps ++ qs) = render ps ++ render qs := by
  induction ps with
  | nil => rfl
  | cons p ps ih => simp [render, ih]

/-- An unmatched byte is written alone. -/
theorem render_cons_false (c : Nat) (ps : List (Bool × Nat)) :
    render ((false, c) :: ps) = c :: render ps := by
  simp [render, piece]

/-- A matched byte is written between the bytes of the two markers. -/
theorem render_cons_true (c : Nat) (ps : List (Bool × Nat)) :
    render ((true, c) :: ps) =
      91 :: ([35, 57, 54, 54, 52, 99, 56, 58, 58, 98, 93]
        ++ c :: 91 :: ([119, 104, 105, 116, 101, 58, 58, 45, 93] ++ render ps)) := by
  simp [render, piece, openTok_eq, closeTok_eq]

/-- In the rendering of a text that does not contain the `[`-headed token `91 :: t`,
every occurrence of the token begins where a marker was written: at the open marker
of a matched byte, or at its close marker. -/
theorem occurrence_at_marker (t : GoString) (ht : 91 ∉ t) (hne : t ≠ [])
    (ps : List (Bool × Nat)) (hno : ¬ (91 :: t) <:+: ps.map Prod.snd) (pre suf : GoString)
    (h : render ps = pre ++ (91 :: t) ++ suf) :
    ∃ (ps1 : List (Bool × Nat)) (c : Nat) (ps2 : List (Bool × Nat)),
      ps = ps1 ++ (true, c) :: ps2 ∧
      ((pre = render ps1 ∧ (91 :: t) ++ suf = openTok ++ [c] ++ closeTok ++ render ps2) ∨
       (pre = render ps1 ++ openTok ++ [c] ∧ (91 :: t) ++ suf = closeTok ++ render ps2)) := by
  induction ps generalizing pre with
  | nil => simp [render] at h
  | cons q ps ih =>
    have hno' : ¬ (91 :: t) <:+: ps.map Prod.snd := fun hin =>
      hno (by
        rw [List.map_cons]
        exact List.infix_cons hin)
    obtain ⟨m, c⟩ := q
    cases m with
    | false =>
      rw [render_cons_false] at h
      cases pre with
      | nil =>
        exfalso
        simp only [List.nil_append, List.cons_append, List.cons.injEq] at h
        obtain ⟨rfl, h2⟩ := h
        have hp := prefix_of_render t suf ps ht h2
        apply hno
        rw [List.map_cons]
        exact ((List.cons_prefix_cons).2 ⟨rfl, hp⟩).isInfix
      | cons x pre1 =>
        simp only [List.cons_append, List.cons.injEq] at h
        obtain ⟨rfl, h2⟩ := h
        obtain ⟨ps1, c', ps2, hps, halt⟩ := ih hno' pre1 (by simpa using h2)
        refine ⟨(false, c) :: ps1, c', ps2, by simp [hps], ?_⟩
        rcases halt with ⟨h3, h4⟩ | ⟨h3, h4⟩
        · exact Or.inl ⟨by simp [render_cons_false, h3], h4⟩
        · exact Or.inr ⟨by simp [render_cons_false, h3], h4⟩
    | true =>
      rw [render_cons_true] at h
      cases pre with
      | nil =>
        refine ⟨[], c, ps, rfl, Or.inl ⟨rfl, ?_⟩⟩
        simpa [openTok_eq, closeTok_eq] using h.symm
      | cons x pre1 =>
        simp only [List.cons_append, List.cons.injEq] at h
        obtain ⟨rfl, h2⟩ := h
        obtain ⟨pre2, rfl, h3⟩ := occurrence_skip [35, 57, 54, 54, 52, 99, 56, 58, 58, 98, 93]
          (c :: 91 :: ([119, 104, 105, 116, 101, 58, 58, 45, 93] ++ render ps)) t pre1 suf
          (by decide) (by simpa using h2.symm)
        cases pre2 with
        | nil =>
          exfalso
          simp only [List.nil_append, List.cons_append, List.cons.injEq] at h3
          obtain ⟨_, h4⟩ := h3
          cases t with
          | nil => exact hne rfl
          | cons y t' =>
            simp only [List.cons_append, List.cons.injEq] at h4
            exact ht (by simp [h4.1])
        | cons y pre3 =>
          simp only [List.cons_append, List.cons.injEq] at h3
          obtain ⟨rfl, h4⟩ := h3
          cases pre3 with
          | nil =>
            refine ⟨[], y, ps, rfl, Or.inr ⟨by simp [render, openTok_eq], ?_⟩⟩
            simpa [closeTok_eq] using h4
          | cons z pre4 =>
            simp only [List.cons_append, List.cons.injEq] at h4
            obtain ⟨rfl, h5⟩ := h4
            obtain ⟨pre5, rfl, h6⟩ := occurrence_skip [119, 104, 105, 116, 101, 58, 58, 45, 93]
              (render ps) t pre4 suf (by decide) (by simpa using h5)
            obtain ⟨ps1, c', ps2, hps, halt⟩ := ih hno' pre5 h6.symm
            refine ⟨(true, y) :: ps1, c', ps2, by simp [hps], ?_⟩
            rcases halt with ⟨h7, h8⟩ | ⟨h7, h8⟩
            · exact Or.inl ⟨by simp [render_cons_true, h7], h8⟩
            · exact Or.inr ⟨by simp [render_cons_true, h7], h8⟩

/-- Every string starts with the empty string. -/
theorem HasPrefix_nil (s : GoString) : HasPrefix s [] = true := by
  rw [HasPrefix_iff]
  exact List.nil_prefix

/-- `strings.HasPrefix` compares the first bytes and then the rest. -/
theorem HasPrefix_cons_cons (a b : Nat) (s p : GoString) :
    HasPrefix (a :: s) (b :: p) = (decide (a = b) && HasPrefix s p) := by
  rw [Bool.eq_iff_iff, Bool.and_eq_true, decide_eq_true_eq, HasPrefix_iff, HasPrefix_iff,
    List.cons_prefix_cons]
  exact ⟨fun h => ⟨h.1.symm, h.2⟩, fun h => ⟨h.1.symm, h.2⟩⟩

/-- No `[`-headed token begins inside a stretch without `[`. -/
theorem occurrences_skip (t w l : GoString) (hw : 91 ∉ w) :
    occurrences (91 :: t) (w ++ l) = occurrences (91 :: t) l := by
  induction w with
  | nil => rfl
  | cons a w ih =>
    have ha : a ≠ 91 := fun h => hw (by simp [h])
    rw [List.cons_append, occurrences, HasPrefix_cons_cons, ih (fun hm => hw (List.mem_cons_of_mem _ hm))]
    simp [ha]

/-- A token absent from the text does not begin at an unmatched byte. -/
theorem not_HasPrefix_unmatched (t : GoString) (ht : 91 ∉ t) (c : Nat) (ps : List (Bool × Nat))
    (hno : ¬ (91 :: t) <:+: c :: ps.map Prod.snd) :
    HasPrefix (c :: render ps) (91 :: t) = false := by
  rw [Bool.eq_false_iff]
  intro h
  rw [HasPrefix_cons_cons, Bool.and_eq_true, decide_eq_true_eq, HasPrefix_iff] at h
  obtain ⟨rfl, suf, hsuf⟩ := h
  exact hno ((List.cons_prefix_cons).2 ⟨rfl, prefix_of_render t suf ps ht hsuf.symm⟩).isInfix

/-- The open token occurs once for every matched byte. -/
theorem occurrences_openTok (ps : List (Bool × Nat)) (hno : ¬ openTok <:+: ps.map Prod.snd) :
    occurrences openTok (render ps) = (ps.filter (fun q => q.1)).length := by
  rw [openTok_eq] at hno ⊢
  induction ps with
  | nil => rfl
  | cons q ps ih =>
    have hno' : ¬ (91 :: [35, 57, 54, 54, 52, 99, 56, 58, 58, 98, 93]) <:+: ps.map Prod.snd :=
      fun hin => hno (by
        rw [List.map_cons]
        exact List.infix_cons hin)
    obtain ⟨m, c⟩ := q
    cases m with
    | false =>
      rw [render_cons_false, occurrences, not_HasPrefix_unmatched _ (by decide) c ps hno, ih hno']
      simp
    | true =>
      rw [render_cons_true, occurrences, occurrences_skip _ _ _ (by decide), occurrences,
        occurrences, occurrences_skip _ _ _ (by decide), ih hno']
      simp [HasPrefix_cons_cons, HasPrefix_nil]
      omega

/-- The close token occurs once for every matched byte. -/
theorem occurrences_closeTok (ps : List (Bool × Nat)) (hno : ¬ closeTok <:+: ps.map Prod.snd) :
    occurrences closeTok (render ps) = (ps.filter (fun q => q.1)).length := by
  rw [closeTok_eq] at hno ⊢
  induction ps with
  | nil => rfl
  | cons q ps ih =>
    have hno' : ¬ (91 :: [119, 104, 105, 116, 101, 58, 58, 45, 93]) <:+: ps.map Prod.snd :=
      fun hin => hno (by
        rw [List.map_cons]
        exact List.infix_cons hin)
    obtain ⟨m, c⟩ := q
    cases m with
    | false =>
      rw [render_cons_false, occurrences, not_HasPrefix_unmatched _ (by decide) c ps hno, ih hno']
      simp
    | true =>
      rw [render_cons_true, occurrences, occurrences_skip _ _ _ (by decide), occurrences,
        occurrences, occurrences_skip _ _ _ (by decide), ih hno']
      simp [HasPrefix_cons_cons, HasPrefix_nil]
      omega

/-- The rendering of a text that contains neither token has its markers paired. -/
theorem render_paired (ps : List (Bool × Nat)) (hopen : ¬ openTok <:+: ps.map Prod.snd)
    (hclose : ¬ closeTok <:+: ps.map Prod.snd) : MarkersPaired (render ps) := by
  refine ⟨?_, ?_, ?_⟩
  · intro pre suf h
    have hno := hopen
    rw [openTok_eq] at hno h
    obtain ⟨ps1, c, ps2, _, halt⟩ :=
      occurrence_at_marker _ (by decide) (by decide) ps hno pre suf h
    rcases halt with ⟨_, h2⟩ | ⟨_, h2⟩
    · refine ⟨c, render ps2, ?_⟩
      rw [← openTok_eq, List.append_assoc, List.append_assoc] at h2
      simpa using List.append_cancel_left h2
    · exfalso
      simp [closeTok_eq] at h2
  · intro pre suf h
    have hno := hclose
    rw [closeTok_eq] at hno h
    obtain ⟨ps1, c, ps2, _, halt⟩ :=
      occurrence_at_marker _ (by decide) (by decide) ps hno pre suf h
    rcases halt with ⟨_, h2⟩ | ⟨h1, _⟩
    · exfalso
      simp [openTok_eq] at h2
    · exact ⟨render ps1, c, h1⟩
  · rw [occurrences_openTok ps hopen, occurrences_closeTok ps hclose]

/-- Claim C9, as amended (marker tokens are paired unless the text brings its own).
For a text that contains neither marker token and a query for which
`highlightMatches` returns a string, every occurrence of the open token in the result
is followed by exactly one byte and then the close token, every occurrence of the
close token is preceded by an open token and one byte, and the two tokens occur
equally often. -/
theorem highlightMatches_markers_paired (lr : Nat → Nat) (text pattern out : GoString)
    (hopen : Contains text openTok = false) (hclose : Contains text closeTok = false)
    (h : highlightMatches lr text pattern = some out) : MarkersPaired out := by
  obtain ⟨ps, hps, rfl⟩ := highlightMatches_render lr text pattern out h
  apply render_paired
  · rw [hps, ← Contains_iff, hopen]
    simp
  · rw [hps, ← Contains_iff, hclose]
    simp

/-- Witness of the amended C9: `highlightMatches("git push", "git")`. -/
theorem highlightMatches_markers_paired_witness :
    Contains (ascii "git push") openTok = false ∧ Contains (ascii "git push") closeTok = false ∧
    highlightMatches unicodeToLower (ascii "git push") (ascii "git") =
      some (ascii "[#9664c8::b]g[white::-][#9664c8::b]i[white::-][#9664c8::b]t[white::-] push") ∧
    MarkersPaired
      (ascii "[#9664c8::b]g[white::-][#9664c8::b]i[white::-][#9664c8::b]t[white::-] push") :=
  ⟨by decide, by decide, by decide,
    highlightMatches_markers_paired unicodeToLower (ascii "git push") (ascii "git") _
      (by decide) (by decide) (by decide)⟩

/-- Claim C9 as stated fails: the entry `echo [white::-]` with the query `e` is
annotated as `[#9664c8::b]e[white::-]cho [white::-]`, where the close token occurs
twice and the open token once, and the second close token follows no open token. -/
theorem highlightMatches_markers_unpaired :
    highlightMatches unicodeToLower (ascii "echo [white::-]") (ascii "e") =
      some (ascii "[#9664c8::b]e[white::-]cho [white::-]") ∧
    occurrences openTok (ascii "[#9664c8::b]e[white::-]cho [white::-]") = 1 ∧
    occurrences closeTok (ascii "[#9664c8::b]e[white::-]cho [white::-]") = 2 ∧
    ¬ MarkersPaired (ascii "[#9664c8::b]e[white::-]cho [white::-]") :=
  ⟨by decide, by decide, by decide, fun h => absurd h.2.2 (by decide)⟩

/-! ## The result as a set of subsequence matches -/

/-- A prefix match is a substring match. -/
theorem Contains_of_HasPrefix {s p : GoString} (h : HasPrefix s p = true) :
    Contains s p = true :=
  Contains_iff.2 (HasPrefix_iff.1 h).isInfix

/-- A substring match is a subsequence match. -/
theorem fuzzyMatch_of_Contains {s p : GoString} (h : Contains s p = true) :
    fuzzyMatch s p = true :=
  (fuzzyMatch_iff_sublist s p).2 (Contains_iff.1 h).sublist

/-- An entry has a tier exactly when the subsequence test succeeds on the lowercased
entry and query. -/
theorem tier_ne_none_iff (lr : Nat → Nat) (e q : GoString) :
    tier lr e q ≠ none ↔ fuzzyMatch (ToLower lr e) (ToLower lr q) = true := by
  unfold tier
  by_cases h1 : HasPrefix (ToLower lr e) (ToLower lr q) = true
  · simp [h1, fuzzyMatch_of_Contains (Contains_of_HasPrefix h1)]
  · by_cases h2 : Contains (ToLower lr e) (ToLower lr q) = true
    · simp [h1, h2, fuzzyMatch_of_Contains h2]
    · by_cases h3 : fuzzyMatch (ToLower lr e) (ToLower lr q) = true
      · simp [h1, h2, h3]
      · simp [h1, h2, h3]

/-- The three tier blocks together are a rearrangement of the subsequence matches. -/
theorem inTier_blocks_perm (lr : Nat → Nat) (q : GoString) (C : List GoString) :
    (inTier lr q Tier.Prefix C ++ inTier lr q Tier.Substring C
        ++ inTier lr q Tier.Subsequence C).Perm
      (C.filter (fun e => fuzzyMatch (ToLower lr e) (ToLower lr q))) := by
  induction C with
  | nil => simp [inTier]
  | cons cmd C ih =>
    have hfz := tier_ne_none_iff lr cmd q
    cases ht : tier lr cmd q with
    | none =>
      have hf : fuzzyMatch (ToLower lr cmd) (ToLower lr q) = false := by
        rw [← Bool.not_eq_true, ← hfz, ht]
        simp
      simpa [inTier, ht, hf] using ih
    | some T =>
      have hf : fuzzyMatch (ToLower lr cmd) (ToLower lr q) = true := by
        rw [← hfz, ht]
        simp
      have hcons : (cmd :: C).filter (fun e => fuzzyMatch (ToLower lr e) (ToLower lr q))
          = cmd :: C.filter (fun e => fuzzyMatch (ToLower lr e) (ToLower lr q)) := by
        simp [List.filter_cons, hf]
      rw [hcons]
      cases T with
      | Prefix =>
        simpa [inTier, ht] using ih
      | Substring =>
        have : inTier lr q Tier.Prefix (cmd :: C) ++ inTier lr q Tier.Substring (cmd :: C)
            ++ inTier lr q Tier.Subsequence (cmd :: C)
            = inTier lr q Tier.Prefix C ++ cmd :: (inTier lr q Tier.Substring C
              ++ inTier lr q Tier.Subsequence C) := by
          simp [inTier, ht]
        rw [this]
        refine List.perm_middle.trans (List.Perm.cons _ ?_)
        simpa using ih
      | Subsequence =>
        have : inTier lr q Tier.Prefix (cmd :: C) ++ inTier lr q Tier.Substring (cmd :: C)
            ++ inTier lr q Tier.Subsequence (cmd :: C)
            = (inTier lr q Tier.Prefix C ++ inTier lr q Tier.Substring C)
              ++ cmd :: inTier lr q Tier.Subsequence C := by
          simp [inTier, ht]
        rw [this]
        exact List.perm_middle.trans (List.Perm.cons _ ih)

/-- For a non-empty query the result is a rearrangement of the subsequence matches. -/
theorem filterAndSortCommands_perm_filter (lr : Nat → Nat) (C : List GoString) (q : GoString)
    (hq : q ≠ []) :
    (filterAndSortCommands lr C q).Perm
      (C.filter (fun e => fuzzyMatch (ToLower lr e) (ToLower lr q))) := by
  rw [filterAndSortCommands_eq lr C q hq]
  exact inTier_blocks_perm lr q C

/-- For a non-empty query an entry is returned exactly when it is a subsequence match. -/
theorem mem_filterAndSortCommands (lr : Nat → Nat) (C : List GoString) (q : GoString)
    (hq : q ≠ []) (e : GoString) :
    e ∈ filterAndSortCommands lr C q ↔
      e ∈ C ∧ fuzzyMatch (ToLower lr e) (ToLower lr q) = true := by
  rw [(filterAndSortCommands_perm_filter lr C q hq).mem_iff, List.mem_filter]

/-- Claim C17 (the result is exactly the subsequence-matching entries, reordered).  For
a non-empty query `q` the result is a permutation of the entries `e` of `C` for which
`fuzzyMatch (ToLower e) (ToLower q)` is true, each with its multiplicity in `C`; an
entry is returned exactly when the lowercased query is a subsequence of the lowercased
entry; a Prefix match is a Substring match and a Substring match is a Subsequence
match. -/
theorem filterAndSortCommands_perm (lr : Nat → Nat) (C : List GoString) (q : GoString)
    (hq : q ≠ []) :
    (filterAndSortCommands lr C q).Perm
        (C.filter (fun e => fuzzyMatch (ToLower lr e) (ToLower lr q))) ∧
    (∀ e, e ∈ filterAndSortCommands lr C q ↔
        e ∈ C ∧ (ToLower lr q).Sublist (ToLower lr e)) ∧
    (∀ s p : GoString, HasPrefix s p = true → Contains s p = true) ∧
    (∀ s p : GoString, Contains s p = true → fuzzyMatch s p = true) := by
  refine ⟨filterAndSortCommands_perm_filter lr C q hq, ?_,
    fun _ _ h => Contains_of_HasPrefix h, fun _ _ h => fuzzyMatch_of_Contains h⟩
  intro e
  rw [mem_filterAndSortCommands lr C q hq, fuzzyMatch_iff_sublist]

/-- Witness of C17 on the history and query of `TestFilterHistoryFuzzyMatches`. -/
theorem filterAndSortCommands_perm_witness :
    ascii "git" ≠ [] ∧
    (filterAndSortCommands unicodeToLower fuzzyHistory (ascii "git")).Perm
      (fuzzyHistory.filter
        (fun e => fuzzyMatch (ToLower unicodeToLower e) (ToLower unicodeToLower (ascii "git")))) :=
  ⟨by decide,
    (filterAndSortCommands_perm unicodeToLower fuzzyHistory (ascii "git") (by decide)).1⟩

/-- Every entry of the result is an entry of the corpus. -/
theorem filterAndSortCommands_subset (lr : Nat → Nat) (C : List GoString) (q : GoString) :
    ∀ e ∈ filterAndSortCommands lr C q, e ∈ C := by
  intro e he
  by_cases hq : q = []
  · subst hq
    simpa [filterAndSortCommands] using he
  · exact ((mem_filterAndSortCommands lr C q hq e).1 he).1

/-- Claim C15 (matching is case-insensitive and returns entries in their original case).
For non-empty queries `q1` and `q2` with the same lowercased form the results are
equal, and every entry of the result is an entry of `C`, unchanged.  The statement
needs no ASCII assumption. -/
theorem filterAndSortCommands_case_insensitive (lr : Nat → Nat) (C : List GoString)
    (q1 q2 : GoString) (h1 : q1 ≠ []) (h2 : q2 ≠ []) (h : ToLower lr q1 = ToLower lr q2) :
    filterAndSortCommands lr C q1 = filterAndSortCommands lr C q2 ∧
    ∀ e ∈ filterAndSortCommands lr C q1, e ∈ C := by
  refine ⟨?_, filterAndSortCommands_subset lr C q1⟩
  simp only [filterAndSortCommands, if_neg h1, if_neg h2, h]

/-- Witness of C15: the queries `GIT` and `git` on the history of
`TestFilterHistoryFuzzyMatches`. -/
theorem filterAndSortCommands_case_insensitive_witness :
    ascii "GIT" ≠ [] ∧ ascii "git" ≠ [] ∧
    ToLower unicodeToLower (ascii "GIT") = ToLower unicodeToLower (ascii "git") ∧
    filterAndSortCommands unicodeToLower fuzzyHistory (ascii "GIT") =
      [ascii "git push", ascii "git pull", ascii "git commit", ascii "go install tools",
       ascii "gradle integration test"] ∧
    (filterAndSortCommands unicodeToLower fuzzyHistory (ascii "GIT") =
        filterAndSortCommands unicodeToLower fuzzyHistory (ascii "git") ∧
      ∀ e ∈ filterAndSortCommands unicodeToLower fuzzyHistory (ascii "GIT"), e ∈ fuzzyHistory) :=
  ⟨by decide, by decide, by decide, by decide,
    filterAndSortCommands_case_insensitive unicodeToLower fuzzyHistory (ascii "GIT") (ascii "git")
      (by decide) (by decide) (by decide)⟩

/-- The empty string stays empty under `strings.ToLower`. -/
theorem ToLower_nil (lr : Nat → Nat) : ToLower lr [] = [] := by
  simp [ToLower, isASCII]

/-- A query whose lowercased form is non-empty is non-empty. -/
theorem ne_nil_of_ToLower_length {lr : Nat → Nat} {q : GoString} {n : Nat}
    (h : n < (ToLower lr q).length) : q ≠ [] := by
  rintro rfl
  simp [ToLower_nil] at h

/-- An entry whose lowercased form is shorter than the lowercased query is not
returned. -/
theorem not_mem_of_lower_shorter (lr : Nat → Nat) (C : List GoString) (q e : GoString)
    (h : (ToLower lr e).length < (ToLower lr q).length) :
    e ∉ filterAndSortCommands lr C q := by
  intro he
  have hq : q ≠ [] := ne_nil_of_ToLower_length h
  have hs := (fuzzyMatch_iff_sublist _ _).1 ((mem_filterAndSortCommands lr C q hq e).1 he).2
  have := hs.length_le
  omega

/-- Claim C13, as amended (a query longer than an entry after lowercasing never
matches it).  An entry `e` whose lowercased form has fewer bytes than the lowercased
query does not occur in `filterAndSortCommands C q`; this covers ASCII `e` and `q`
with `len(q) > len(e)`, where lowercasing keeps the lengths.  If it holds for every
entry of `C` the result is empty, and for the empty corpus the result is empty for
every query. -/
theorem filterAndSortCommands_longer_query (lr : Nat → Nat) (C : List GoString)
    (q : GoString) :
    (∀ e, (ToLower lr e).length < (ToLower lr q).length → e ∉ filterAndSortCommands lr C q) ∧
    (∀ e, isASCII e = true → isASCII q = true → e.length < q.length →
        e ∉ filterAndSortCommands lr C q) ∧
    ((∀ e ∈ C, (ToLower lr e).length < (ToLower lr q).length) →
        filterAndSortCommands lr C q = []) ∧
    filterAndSortCommands lr [] q = [] := by
  refine ⟨fun e h => not_mem_of_lower_shorter lr C q e h, ?_, ?_, ?_⟩
  · intro e he hq hlen
    apply not_mem_of_lower_shorter
    rw [ToLower_ascii_length lr he, ToLower_ascii_length lr hq]
    exact hlen
  · intro hall
    rw [List.eq_nil_iff_forall_not_mem]
    intro e he
    exact not_mem_of_lower_shorter lr C q e
      (hall e (filterAndSortCommands_subset lr C q e he)) he
  · rw [List.eq_nil_iff_forall_not_mem]
    intro e he
    exact absurd (filterAndSortCommands_subset lr [] q e he) (List.not_mem_nil e)

/-- Witness of the amended C13: the query `git commit --amend` is longer after
lowercasing than the entry `git push` of the history of `TestFilterHistoryFuzzyMatches`. -/
theorem filterAndSortCommands_longer_query_witness :
    (ToLower unicodeToLower (ascii "git push")).length
      < (ToLower unicodeToLower (ascii "git commit --amend")).length ∧
    ascii "git push" ∉
      filterAndSortCommands unicodeToLower fuzzyHistory (ascii "git commit --amend") :=
  ⟨by decide,
    (filterAndSortCommands_longer_query unicodeToLower fuzzyHistory
      (ascii "git commit --amend")).1 (ascii "git push") (by decide)⟩

/-- Claim C13 as stated fails: the query is the Kelvin sign U+212A (three bytes
`E2 84 AA`), the corpus is the one-byte entry `k`.  `strings.ToLower` turns the query
into `k`, so the entry is a Prefix match and is returned although the query is longer
than the entry. -/
theorem filterAndSortCommands_longer_query_matches :
    (ascii "k").length < ([0xE2, 0x84, 0xAA] : GoString).length ∧
    ToLower unicodeToLower [0xE2, 0x84, 0xAA] = ascii "k" ∧
    ascii "k" ∈ [ascii "k"] ∧
    filterAndSortCommands unicodeToLower [ascii "k"] [0xE2, 0x84, 0xAA] = [ascii "k"] := by
  decide

/-- On all-ASCII strings `strings.ToLower` distributes over concatenation. -/
theorem ToLower_append_ascii (lr : Nat → Nat) {q r : GoString} (hq : isASCII q = true)
    (hr : isASCII r = true) : ToLower lr (q ++ r) = ToLower lr q ++ ToLower lr r := by
  have hqr : isASCII (q ++ r) = true := by
    simp only [isASCII, List.all_append, Bool.and_eq_true] at hq hr ⊢
    exact ⟨hq, hr⟩
  rw [ToLower_ascii lr hqr, ToLower_ascii lr hq, ToLower_ascii lr hr, List.map_append]

/-- The subsequence matches of a longer ASCII query are among those of the query it
extends, in the same order. -/
theorem filter_fuzzy_append_sublist (lr : Nat → Nat) (C : List GoString) {q r : GoString}
    (hq : isASCII q = true) (hr : isASCII r = true) :
    (C.filter (fun e => fuzzyMatch (ToLower lr e) (ToLower lr (q ++ r)))).Sublist
      (C.filter (fun e => fuzzyMatch (ToLower lr e) (ToLower lr q))) := by
  apply List.monotone_filter_right
  intro e he
  rw [fuzzyMatch_iff_sublist] at he ⊢
  rw [ToLower_append_ascii lr hq hr] at he
  exact (List.sublist_append_left _ _).trans he

/-- The result for an extended ASCII query is, up to order, a sublist of the result
for the query. -/
theorem filterAndSortCommands_append_subperm (lr : Nat → Nat) (C : List GoString)
    {q r : GoString} (hq : isASCII q = true) (hr : isASCII r = true) :
    (filterAndSortCommands lr C (q ++ r)).Subperm (filterAndSortCommands lr C q) := by
  by_cases hq0 : q = []
  · subst hq0
    rw [List.nil_append]
    by_cases hr0 : r = []
    · subst hr0
      exact List.Subperm.refl _
    · have h1 := filterAndSortCommands_perm_filter lr C r hr0
      have h2 : filterAndSortCommands lr C [] = C := by simp [filterAndSortCommands]
      rw [h2]
      exact h1.subperm.trans (List.filter_sublist C).subperm
  · have hqr : q ++ r ≠ [] := by simp [hq0]
    have h1 := filterAndSortCommands_perm_filter lr C (q ++ r) hqr
    have h2 := filterAndSortCommands_perm_filter lr C q hq0
    exact (h1.subperm.trans (filter_fuzzy_append_sublist lr C hq hr).subperm).trans
      h2.symm.subperm

/-- Claim C18 (typing more characters never adds results).  For ASCII strings `q` and
`r`, every entry of `filterAndSortCommands C (q ++ r)` occurs in
`filterAndSortCommands C q`, at least as many times (the first result is, up to order,
a sublist of the second), so the result does not get longer when the query is
extended.  No assumption on the corpus is needed. -/
theorem filterAndSortCommands_extend_query (lr : Nat → Nat) (C : List GoString)
    (q r : GoString) (hq : isASCII q = true) (hr : isASCII r = true) :
    (∀ e ∈ filterAndSortCommands lr C (q ++ r), e ∈ filterAndSortCommands lr C q) ∧
    (filterAndSortCommands lr C (q ++ r)).Subperm (filterAndSortCommands lr C q) ∧
    (∀ e : GoString,
      ((filterAndSortCommands lr C (q ++ r)).filter (fun x => decide (x = e))).length
        ≤ ((filterAndSortCommands lr C q).filter (fun x => decide (x = e))).length) ∧
    (filterAndSortCommands lr C (q ++ r)).length ≤ (filterAndSortCommands lr C q).length := by
  have hsub := filterAndSortCommands_append_subperm lr C hq hr
  refine ⟨fun e he => hsub.subset he, hsub, ?_, hsub.length_le⟩
  intro e
  exact (hsub.filter _).length_le

/-- Witness of C18: the query `gi` extended by `t` on the history of
`TestFilterHistoryFuzzyMatches`. -/
theorem filterAndSortCommands_extend_query_witness :
    isASCII (ascii "gi") = true ∧ isASCII (ascii "t") = true ∧
    (filterAndSortCommands unicodeToLower fuzzyHistory (ascii "gi" ++ ascii "t")).length
      ≤ (filterAndSortCommands unicodeToLower fuzzyHistory (ascii "gi")).length :=
  ⟨by decide, by decide,
    (filterAndSortCommands_extend_query unicodeToLower fuzzyHistory (ascii "gi") (ascii "t")
      (by decide) (by decide)).2.2.2⟩

/-! ## Deduplication: first entry and reversal -/

/-- The loop only appends to the result it is given. -/
theorem dedupLoop_extends (xs : List GoString) (seen : GoString → Bool)
    (result : List GoString) : ∃ t, dedupLoop xs seen result = result ++ t := by
  induction xs generalizing seen result with
  | nil => exact ⟨[], by simp [dedupLoop]⟩
  | cons x xs ih =>
    rw [dedupLoop]
    split
    · obtain ⟨t, ht⟩ := ih (Function.update seen x true) (result ++ [x])
      exact ⟨x :: t, by simp [ht]⟩
    · exact ih seen result

/-- The line at the end of the log is written first. -/
theorem deduplicateHistory_concat (L : List GoString) (x : GoString) :
    ∃ t, deduplicateHistory (L ++ [x]) = x :: t := by
  unfold deduplicateHistory
  rw [List.reverse_append, List.reverse_singleton, List.singleton_append, dedupLoop]
  obtain ⟨t, ht⟩ := dedupLoop_extends L.reverse (Function.update (fun _ => false) x true)
    ([] ++ [x])
  exact ⟨t, by simpa using ht⟩

/-- Claim C14 (the most recent command comes first).  For a non-empty log `L` the first
element of `deduplicateHistory L` is the last element of `L`. -/
theorem deduplicateHistory_head (L : List GoString) (hL : L ≠ []) :
    (deduplicateHistory L).head? = some (L.getLast hL) := by
  obtain ⟨t, ht⟩ := deduplicateHistory_concat L.dropLast (L.getLast hL)
  rw [List.dropLast_append_getLast hL] at ht
  rw [ht]
  rfl

/-- Witness of C14 on the log `ls, cd, ls, pwd, cd`. -/
theorem deduplicateHistory_head_witness :
    [ascii "ls", ascii "cd", ascii "ls", ascii "pwd", ascii "cd"] ≠ [] ∧
    (deduplicateHistory [ascii "ls", ascii "cd", ascii "ls", ascii "pwd", ascii "cd"]).head?
      = some (ascii "cd") :=
  ⟨by decide,
    deduplicateHistory_head [ascii "ls", ascii "cd", ascii "ls", ascii "pwd", ascii "cd"]
      (by decide)⟩

/-- The result has no two equal entries. -/
theorem deduplicateHistory_nodup (L : List GoString) : (deduplicateHistory L).Nodup := by
  rw [deduplicateHistory_eq_reverse_dedup]
  exact List.nodup_reverse.2 (List.nodup_dedup L)

/-- On a log without repeated lines the result is the reversed log. -/
theorem deduplicateHistory_of_nodup {L : List GoString} (h : L.Nodup) :
    deduplicateHistory L = L.reverse := by
  rw [deduplicateHistory_eq_reverse_dedup, h.dedup]

/-- A list without repeated entries equals its reverse only if it has at most one
entry. -/
theorem length_le_one_of_reverse_eq {D : List GoString} (hD : D.Nodup) (h : D.reverse = D) :
    D.length ≤ 1 := by
  cases D with
  | nil => simp
  | cons a D' =>
    cases hr : D'.reverse with
    | nil =>
      have : D' = [] := by simpa using hr
      simp [this]
    | cons y ys =>
      exfalso
      rw [List.reverse_cons, hr, List.cons_append, List.cons.injEq] at h
      have hy : y ∈ D' := by
        rw [← List.mem_reverse, hr]
        exact List.mem_cons_self y ys
      rw [h.1] at hy
      exact (List.nodup_cons.1 hD).1 hy

/-- Claim C19, as amended (on a duplicate-free log deduplication is plain reversal, so
it is not idempotent).  For a log `L` with no two equal lines `deduplicateHistory L` is
the reverse of `L`; so for every log `L`, deduplicating twice gives the reverse of
`deduplicateHistory L`, which is `deduplicateHistory L` itself exactly when `L` has at
most one distinct line. -/
theorem deduplicateHistory_twice (L : List GoString) :
    (L.Nodup → deduplicateHistory L = L.reverse) ∧
    deduplicateHistory (deduplicateHistory L) = (deduplicateHistory L).reverse ∧
    (deduplicateHistory (deduplicateHistory L) = deduplicateHistory L ↔
      L.toFinset.card ≤ 1) := by
  have hrev := deduplicateHistory_of_nodup (deduplicateHistory_nodup L)
  have hcard : (deduplicateHistory L).length = L.toFinset.card := by
    rw [deduplicateHistory_eq_reverse_dedup, List.length_reverse, List.card_toFinset]
  refine ⟨deduplicateHistory_of_nodup, hrev, ?_⟩
  rw [hrev, ← hcard]
  constructor
  · exact length_le_one_of_reverse_eq (deduplicateHistory_nodup L)
  · intro h
    match hD : deduplicateHistory L, h with
    | [], _ => rfl
    | [_], _ => rfl
    | _ :: _ :: _, h => simp at h

/-- Witness of the amended C19: the duplicate-free log `ls, cd, pwd`. -/
theorem deduplicateHistory_twice_witness :
    [ascii "ls", ascii "cd", ascii "pwd"].Nodup ∧
    deduplicateHistory [ascii "ls", ascii "cd", ascii "pwd"]
      = [ascii "pwd", ascii "cd", ascii "ls"] ∧
    deduplicateHistory (deduplicateHistory [ascii "ls", ascii "cd", ascii "pwd"])
      = [ascii "ls", ascii "cd", ascii "pwd"] :=
  ⟨by decide,
    ((deduplicateHistory_twice [ascii "ls", ascii "cd", ascii "pwd"]).1 (by decide)).trans
      (by decide),
    by decide⟩

/-- Claim C19 as stated fails on a log with one distinct line: for the log `ls`
deduplicating twice gives `deduplicateHistory L` itself. -/
theorem deduplicateHistory_twice_same :
    deduplicateHistory [ascii "ls"] = [ascii "ls"] ∧
    deduplicateHistory (deduplicateHistory [ascii "ls"]) = deduplicateHistory [ascii "ls"] := by
  decide

/-! ## Highlighting: the scan of `fuzzyMatch` -/

/-- Once the cursor has passed the pattern the scan of `fuzzyMatch` stops. -/
theorem fuzzyMatchLoop_exhausted (lp s : GoString) (p : Nat) (h : lp.length ≤ p) :
    fuzzyMatchLoop lp s p = p := by
  cases s with
  | nil => rfl
  | cons a s => simp [fuzzyMatchLoop, Nat.not_lt.2 h]

/-- The rendering has 22 more bytes than the text for every matched byte. -/
theorem render_length (ps : List (Bool × Nat)) :
    (render ps).length = ps.length + 22 * marked ps := by
  induction ps with
  | nil => rfl
  | cons q ps ih =>
    obtain ⟨m, c⟩ := q
    cases m with
    | false =>
      rw [render_cons_false]
      simp only [List.length_cons, ih, marked, List.filter_cons, Bool.false_eq_true, if_false]
      omega
    | true =>
      rw [render_cons_true]
      simp only [List.length_cons, List.length_append, List.length_nil, ih, marked,
        List.filter_cons, if_true]
      omega

/-- No more bytes are matched than the text has. -/
theorem marked_le_length (ps : List (Bool × Nat)) : marked ps ≤ ps.length :=
  List.length_filter_le _ ps

/-- When the lowercased text has as many bytes left as the text, the loop of
`highlightMatches` returns, the result is a rendering of the remaining text, and the
cursor moves as in the loop of `fuzzyMatch` on the lowercased text. -/
theorem highlightLoop_scan (lt lp : GoString) (rest lrest : GoString) (i p : Nat)
    (result : GoString) (hdrop : lt.drop i = lrest) (hlen : lrest.length = rest.length) :
    ∃ ps : List (Bool × Nat), ps.map Prod.snd = rest ∧
      highlightLoop lt lp rest i p result = some (result ++ render ps) ∧
      p + marked ps = fuzzyMatchLoop lp lrest p := by
  induction rest generalizing lrest i p result with
  | nil =>
    have : lrest = [] := List.length_eq_zero.1 hlen
    subst this
    exact ⟨[], rfl, by simp [highlightLoop, render], by simp [marked, fuzzyMatchLoop]⟩
  | cons c rest ih =>
    cases lrest with
    | nil => simp at hlen
    | cons a lrest' =>
      have hi : i < lt.length := by
        by_contra hcon
        rw [List.drop_eq_nil_of_le (Nat.not_lt.1 hcon)] at hdrop
        exact List.noConfusion hdrop
      have hget : lt[i]? = some a := by
        rw [List.drop_eq_getElem_cons hi, List.cons.injEq] at hdrop
        rw [List.getElem?_eq_getElem hi, hdrop.1]
      have hdrop' : lt.drop (i + 1) = lrest' := by
        rw [List.drop_eq_getElem_cons hi, List.cons.injEq] at hdrop
        exact hdrop.2
      have hlen' : lrest'.length = rest.length := by simpa using hlen
      unfold highlightLoop fuzzyMatchLoop
      by_cases hp : p < lp.length
      · rw [if_pos hp, if_pos hp, hget, List.getElem?_eq_getElem hp]
        by_cases hab : a = lp[p]
        · obtain ⟨ps, hps, hout, hcur⟩ := ih lrest' (i + 1) (p + 1)
            (result ++ openTok ++ [c] ++ closeTok) hdrop' hlen'
          refine ⟨(true, c) :: ps, by simp [hps], ?_, ?_⟩
          · simp only [if_pos hab, hout]
            simp [render, piece]
          · rw [if_pos (by rw [hab]), ← hcur]
            simp only [marked, List.filter_cons, if_true, List.length_cons]
            omega
        · obtain ⟨ps, hps, hout, hcur⟩ := ih lrest' (i + 1) p (result ++ [c]) hdrop' hlen'
          refine ⟨(false, c) :: ps, by simp [hps], ?_, ?_⟩
          · simp only [if_neg hab, hout]
            simp [render, piece]
          · rw [if_neg (by
              intro h
              exact hab (Option.some.inj h).symm), ← hcur]
            simp [marked]
      · obtain ⟨ps, hps, hout, hcur⟩ := ih lrest' (i + 1) p (result ++ [c]) hdrop' hlen'
        refine ⟨(false, c) :: ps, by simp [hps], ?_, ?_⟩
        · rw [if_neg hp, hout]
          simp [render, piece]
        · rw [if_neg hp]
          rw [fuzzyMatchLoop_exhausted lp lrest' p (Nat.not_lt.1 hp)] at hcur
          simpa [marked] using hcur

/-- For an all-ASCII text `highlightMatches` returns a rendering of the text in which
the number of matched bytes is the final cursor of `fuzzyMatch` on the lowercased
strings. -/
theorem highlightMatches_scan (lr : Nat → Nat) (text pattern : GoString)
    (ht : isASCII text = true) (hne : pattern ≠ []) :
    ∃ ps : List (Bool × Nat), ps.map Prod.snd = text ∧
      highlightMatches lr text pattern = some (render ps) ∧
      marked ps = fuzzyMatchLoop (ToLower lr pattern) (ToLower lr text) 0 := by
  obtain ⟨ps, hps, hout, hcur⟩ := highlightLoop_scan (ToLower lr text) (ToLower lr pattern)
    text (ToLower lr text) 0 0 [] rfl (ToLower_ascii_length lr ht)
  refine ⟨ps, hps, ?_, by simpa using hcur⟩
  unfold highlightMatches
  rw [if_neg hne, hout]
  simp

/-- Two renderings of the same text that are equal have the same number of matched
bytes. -/
theorem marked_eq_of_render_eq {ps qs : List (Bool × Nat)}
    (hmap : ps.map Prod.snd = qs.map Prod.snd) (h : render ps = render qs) :
    marked ps = marked qs := by
  have h1 := render_length ps
  have h2 := render_length qs
  have h3 : ps.length = qs.length := by
    have := congrArg List.length hmap
    simpa using this
  rw [h] at h1
  omega

/-- On an ASCII text the cursor of `fuzzyMatch` passes only ASCII bytes of the
pattern. -/
theorem fuzzyMatchLoop_le_ascii (lp s : GoString) (p : Nat) (hs : ∀ a ∈ s, a < 0x80) :
    fuzzyMatchLoop lp s p ≤ p + (lp.drop p).countP (fun b => decide (b < 0x80)) := by
  induction s generalizing p with
  | nil => simp [fuzzyMatchLoop]
  | cons a s ih =>
    have hs' : ∀ b ∈ s, b < 0x80 := fun b hb => hs b (List.mem_cons_of_mem _ hb)
    unfold fuzzyMatchLoop
    by_cases hp : p < lp.length
    · rw [if_pos hp]
      by_cases hab : lp[p]? = some a
      · rw [if_pos hab]
        have hpa : lp[p] = a := by
          rw [List.getElem?_eq_getElem hp] at hab
          exact Option.some.inj hab
        have ha : a < 0x80 := hs a (List.mem_cons_self a s)
        have := ih (p + 1) hs'
        rw [List.drop_eq_getElem_cons hp, List.countP_cons, hpa, if_pos (by simpa using ha)]
        omega
      · rw [if_neg hab]
        exact ih p hs'
    · rw [if_neg hp]
      omega

/-- The encoding of a rune has at most one ASCII byte. -/
theorem encodeRune_countP (r : Nat) :
    (encodeRune r).countP (fun b => decide (b < 0x80)) ≤ 1 := by
  unfold encodeRune
  split
  · exact (List.countP_le_length _).trans (by simp)
  · split
    · simp only [List.countP_cons, List.countP_nil, decide_eq_true_eq]
      split <;> split <;> omega
    · split
      · simp [List.countP_cons]
      · split
        · simp only [List.countP_cons, List.countP_nil, decide_eq_true_eq]
          split <;> split <;> split <;> omega
        · simp only [List.countP_cons, List.countP_nil, decide_eq_true_eq]
          split <;> split <;> split <;> split <;> omega

/-- The loop of `strings.Map` writes at most one ASCII byte for every byte it reads. -/
theorem mapLoop_countP (mapping : Nat → Nat) (s : GoString) (skip : Nat) :
    (mapLoop mapping s skip).countP (fun b => decide (b < 0x80)) ≤ s.length := by
  induction s generalizing skip with
  | nil => simp [mapLoop]
  | cons b rest ih =>
    cases skip with
    | zero =>
      rw [mapLoop, List.countP_append, List.length_cons]
      have h1 := encodeRune_countP (mapping (decodeRune (b :: rest)).1)
      have h2 := ih ((decodeRune (b :: rest)).2 - 1)
      omega
    | succ k =>
      rw [mapLoop, List.length_cons]
      exact (ih k).trans (Nat.le_succ _)

/-- The lowercased string has at most as many ASCII bytes as the string has bytes. -/
theorem ToLower_countP (lr : Nat → Nat) (s : GoString) :
    (ToLower lr s).countP (fun b => decide (b < 0x80)) ≤ s.length := by
  unfold ToLower
  split
  · exact (List.countP_le_length _).trans (by simp)
  · exact mapLoop_countP lr s 0

/-- Lowercasing an all-ASCII string gives ASCII bytes. -/
theorem ToLower_ascii_bytes (lr : Nat → Nat) {s : GoString} (h : isASCII s = true) :
    ∀ a ∈ ToLower lr s, a < 0x80 := by
  rw [ToLower_ascii lr h]
  intro a ha
  obtain ⟨c, hc, rfl⟩ := List.mem_map.1 ha
  have hc' : c < 0x80 := by
    simp only [isASCII, List.all_eq_true, decide_eq_true_eq] at h
    exact h c hc
  unfold lowerByte
  split <;> omega

/-- Claim C11 (the annotated string is the text with marker pairs inserted).  For an
ASCII entry `text`, `highlightMatches text pattern` returns the concatenation, over
the bytes of `text` in order, of the byte alone or of the byte between the open and the
close marker (`render ps` for a marking `ps` of `text`); its length is
`len(text) + 22 * k` for the number `k` of wrapped bytes, `k` is at most
`min(len(text), len(pattern))`, and the result is never shorter than `text`.  The
statement holds for the empty pattern too. -/
theorem highlightMatches_inserts_markers (lr : Nat → Nat) (text pattern : GoString)
    (ht : isASCII text = true) :
    ∃ ps : List (Bool × Nat), ps.map Prod.snd = text ∧
      highlightMatches lr text pattern = some (render ps) ∧
      (render ps).length = text.length + 22 * marked ps ∧
      marked ps ≤ min text.length pattern.length ∧
      text.length ≤ (render ps).length := by
  by_cases hne : pattern = []
  · subst hne
    refine ⟨text.map (fun c => (false, c)), by simp [Function.comp_def], ?_, ?_, ?_, ?_⟩
    · simp [highlightMatches, render_unmarked]
    · rw [render_unmarked]
      simp [marked]
    · simp [marked]
    · rw [render_unmarked]
  · obtain ⟨ps, hps, hout, hcur⟩ := highlightMatches_scan lr text pattern ht hne
    have hlen : ps.length = text.length := by
      rw [← hps, List.length_map]
    have h1 := render_length ps
    have h2 := marked_le_length ps
    have h3 := fuzzyMatchLoop_le_ascii (ToLower lr pattern) (ToLower lr text) 0
      (ToLower_ascii_bytes lr ht)
    have h4 := ToLower_countP lr pattern
    rw [List.drop_zero] at h3
    refine ⟨ps, hps, hout, by omega, ?_, by omega⟩
    rw [Nat.le_min]
    constructor <;> omega

/-- Witness of C11: `highlightMatches("git push", "gps")` wraps three bytes. -/
theorem highlightMatches_inserts_markers_witness :
    isASCII (ascii "git push") = true ∧
    highlightMatches unicodeToLower (ascii "git push") (ascii "gps") =
      some (ascii "[#9664c8::b]g[white::-]it [#9664c8::b]p[white::-]u[#9664c8::b]s[white::-]h") ∧
    ∃ ps : List (Bool × Nat), ps.map Prod.snd = ascii "git push" ∧
      highlightMatches unicodeToLower (ascii "git push") (ascii "gps") = some (render ps) ∧
      (render ps).length = (ascii "git push").length + 22 * marked ps ∧
      marked ps ≤ min (ascii "git push").length (ascii "gps").length ∧
      (ascii "git push").length ≤ (render ps).length :=
  ⟨by decide, by decide,
    highlightMatches_inserts_markers unicodeToLower (ascii "git push") (ascii "gps")
      (by decide)⟩

/-- Claim C12 (highlighting with an empty query is the identity).
`highlightMatches s ""` returns `s`, for every string `s`. -/
theorem highlightMatches_empty_pattern (lr : Nat → Nat) (s : GoString) :
    highlightMatches lr s [] = some s := by
  simp [highlightMatches]

/-- Claim C16 (the Highlighter runs the same traversal as the subsequence test).  For an
ASCII entry `text` and a non-empty ASCII query `pattern`, `highlightMatches` returns
the text under some marking; for every marking `ps` of `text` that renders to the
result, the number of wrapped bytes is `len(pattern)` exactly when
`fuzzyMatch (ToLower text) (ToLower pattern)` is true; so an entry that
`filterAndSortCommands C pattern` returns, whatever its tier, has exactly
`len(pattern)` bytes wrapped. -/
theorem highlightMatches_marks_iff_fuzzyMatch (lr : Nat → Nat) (text pattern : GoString)
    (ht : isASCII text = true) (hp : isASCII pattern = true) (hne : pattern ≠ []) :
    (∃ ps : List (Bool × Nat), ps.map Prod.snd = text ∧
        highlightMatches lr text pattern = some (render ps)) ∧
    (∀ ps : List (Bool × Nat), ps.map Prod.snd = text →
        highlightMatches lr text pattern = some (render ps) →
        (marked ps = pattern.length ↔
          fuzzyMatch (ToLower lr text) (ToLower lr pattern) = true)) ∧
    (∀ C : List GoString, text ∈ filterAndSortCommands lr C pattern →
        ∀ ps : List (Bool × Nat), ps.map Prod.snd = text →
          highlightMatches lr text pattern = some (render ps) →
          marked ps = pattern.length) := by
  obtain ⟨ps0, hps0, hout0, hcur0⟩ := highlightMatches_scan lr text pattern ht hne
  have key : ∀ ps : List (Bool × Nat), ps.map Prod.snd = text →
      highlightMatches lr text pattern = some (render ps) →
      (marked ps = pattern.length ↔
        fuzzyMatch (ToLower lr text) (ToLower lr pattern) = true) := by
    intro ps hps hout
    have hrender : render ps = render ps0 := by
      rw [hout0] at hout
      exact (Option.some.inj hout).symm
    rw [marked_eq_of_render_eq (hps.trans hps0.symm) hrender, hcur0, fuzzyMatch, beq_iff_eq,
      ToLower_ascii_length lr hp]
  refine ⟨⟨ps0, hps0, hout0⟩, key, ?_⟩
  intro C hmem ps hps hout
  exact (key ps hps hout).2 ((mem_filterAndSortCommands lr C pattern hne text).1 hmem).2

/-- Witness of C16: the entry `go install tools`, a Subsequence match of `git`, has
three bytes wrapped. -/
theorem highlightMatches_marks_iff_fuzzyMatch_witness :
    isASCII (ascii "go install tools") = true ∧ isASCII (ascii "git") = true ∧
    ascii "git" ≠ [] ∧
    highlightMatches unicodeToLower (ascii "go install tools") (ascii "git") =
      some (ascii
        "[#9664c8::b]g[white::-]o [#9664c8::b]i[white::-]ns[#9664c8::b]t[white::-]all tools") ∧
    ∃ ps : List (Bool × Nat), ps.map Prod.snd = ascii "go install tools" ∧
      highlightMatches unicodeToLower (ascii "go install tools") (ascii "git")
        = some (render ps) :=
  ⟨by decide, by decide, by decide, by decide,
    (highlightMatches_marks_iff_fuzzyMatch unicodeToLower (ascii "go install tools")
      (ascii "git") (by decide) (by decide) (by decide)).1⟩

/-! ## Highlighting: when the loop returns -/

/-- The loop of `highlightMatches` returns exactly when the cursor is already past the
pattern, or the lowercased text has a byte left for every byte of the text still to
read, or the scan of `fuzzyMatch` over the rest of the lowercased text completes the
pattern. -/
theorem highlightLoop_isSome_iff (lt lp : GoString) (rest : GoString) (i p : Nat)
    (result : GoString) :
    (highlightLoop lt lp rest i p result).isSome = true ↔
      lp.length ≤ p ∨ rest.length ≤ (lt.drop i).length ∨
        fuzzyMatchLoop lp (lt.drop i) p = lp.length := by
  induction rest generalizing i p result with
  | nil => simp [highlightLoop]
  | cons c rest ih =>
    unfold highlightLoop
    by_cases hp : p < lp.length
    · rw [if_pos hp]
      by_cases hi : i < lt.length
      · have hdrop : lt.drop i = lt[i] :: lt.drop (i + 1) := List.drop_eq_getElem_cons hi
        rw [List.getElem?_eq_getElem hi, List.getElem?_eq_getElem hp, hdrop, fuzzyMatchLoop,
          if_pos hp, List.getElem?_eq_getElem hp]
        simp only [List.length_cons, Nat.add_le_add_iff_right]
        by_cases hab : lt[i] = lp[p]
        · simp only [if_pos hab]
          rw [if_pos (by rw [hab]), ih]
          constructor
          · rintro (h | h | h)
            · have hlen : lp.length = p + 1 := by omega
              right
              right
              rw [fuzzyMatchLoop_exhausted lp _ (p + 1) h, hlen]
            · exact Or.inr (Or.inl h)
            · exact Or.inr (Or.inr h)
          · rintro (h | h | h)
            · omega
            · exact Or.inr (Or.inl h)
            · exact Or.inr (Or.inr h)
        · simp only [if_neg hab]
          rw [if_neg (by
            intro h
            exact hab (Option.some.inj h).symm), ih]
      · rw [List.getElem?_eq_none (Nat.not_lt.1 hi), List.drop_eq_nil_of_le (Nat.not_lt.1 hi)]
        simp only [Option.isSome_none, Bool.false_eq_true, List.length_cons, List.length_nil,
          fuzzyMatchLoop, false_iff, not_or]
        exact ⟨by omega, by omega, by omega⟩
    · rw [if_neg hp, ih]
      simp [Nat.not_lt.1 hp]

/-- `highlightMatches` returns a string exactly when the pattern is empty, or the
lowercased text is at least as long as the text, or the lowercased pattern is a
subsequence match of the lowercased text. -/
theorem highlightMatches_isSome_iff (lr : Nat → Nat) (text pattern : GoString) :
    (highlightMatches lr text pattern).isSome = true ↔
      pattern = [] ∨ text.length ≤ (ToLower lr text).length ∨
        fuzzyMatch (ToLower lr text) (ToLower lr pattern) = true := by
  unfold highlightMatches
  by_cases hne : pattern = []
  · simp [hne]
  · rw [if_neg hne, highlightLoop_isSome_iff, List.drop_zero, fuzzyMatch, beq_iff_eq]
    constructor
    · rintro (h | h | h)
      · right
        right
        rw [fuzzyMatchLoop_exhausted _ _ 0 h]
        omega
      · exact Or.inr (Or.inl h)
      · exact Or.inr (Or.inr h)
    · rintro (h | h | h)
      · exact absurd h hne
      · exact Or.inr (Or.inl h)
      · exact Or.inr (Or.inr h)

/-- Claim C7, as amended (the Highlighter never fails on what the program passes to
it).  `highlightMatches text pattern` returns a string, every read `lowerText[i]` and
`lowerPattern[patternIdx]` being within bounds, exactly when the pattern is empty, or
`strings.ToLower text` has at least `len(text)` bytes, or
`fuzzyMatch (ToLower text) (ToLower pattern)` is true.  So it returns for every ASCII
text with any pattern, and for every entry that `filterAndSortCommands C pattern`
returns, whatever its bytes and whatever lowercasing does to its length: these are
the only arguments `updateList` passes. -/
theorem highlightMatches_returns (lr : Nat → Nat) (text pattern : GoString) :
    ((∃ out, highlightMatches lr text pattern = some out) ↔
      pattern = [] ∨ text.length ≤ (ToLower lr text).length ∨
        fuzzyMatch (ToLower lr text) (ToLower lr pattern) = true) ∧
    (isASCII text = true → ∃ out, highlightMatches lr text pattern = some out) ∧
    (∀ C : List GoString, text ∈ filterAndSortCommands lr C pattern →
      ∃ out, highlightMatches lr text pattern = some out) := by
  have key := highlightMatches_isSome_iff lr text pattern
  rw [Option.isSome_iff_exists] at key
  refine ⟨key, ?_, ?_⟩
  · intro ht
    exact key.2 (Or.inr (Or.inl (ToLower_ascii_length lr ht).ge))
  · intro C hmem
    by_cases hne : pattern = []
    · exact key.2 (Or.inl hne)
    · exact key.2 (Or.inr (Or.inr ((mem_filterAndSortCommands lr C pattern hne text).1 hmem).2))

/-- Witness of the amended C7: the entry with the bytes `C4 B0` (U+0130), which
`strings.ToLower` shortens to `i`, is returned for the query `i` and is annotated
without a failure: the byte `C4` is wrapped and `B0` copied. -/
theorem highlightMatches_returns_witness :
    ToLower unicodeToLower [0xC4, 0xB0] = ascii "i" ∧
    ([0xC4, 0xB0] : GoString) ∈
      filterAndSortCommands unicodeToLower [[0xC4, 0xB0], ascii "ls"] (ascii "i") ∧
    highlightMatches unicodeToLower [0xC4, 0xB0] (ascii "i")
      = some (openTok ++ [0xC4] ++ closeTok ++ [0xB0]) ∧
    ∃ out, highlightMatches unicodeToLower [0xC4, 0xB0] (ascii "i") = some out :=
  ⟨by decide, by decide, by decide,
    (highlightMatches_returns unicodeToLower [0xC4, 0xB0] (ascii "i")).2.2
      [[0xC4, 0xB0], ascii "ls"] (by decide)⟩

/-- Claim C7 as stated fails for `highlightMatches` called on arbitrary strings: for the
text with the two bytes `C4 B0` (U+0130) and the query `x`, `strings.ToLower` turns
the text into the single byte `i`, the read `lowerText[1]` of the second iteration is
out of range, and no string is returned.  The text is not a match of `x`, so
`filterAndSortCommands` never returns it for this query. -/
theorem highlightMatches_index_out_of_range :
    ToLower unicodeToLower [0xC4, 0xB0] = ascii "i" ∧
    highlightMatches unicodeToLower [0xC4, 0xB0] (ascii "x") = none ∧
    ∀ C : List GoString,
      ([0xC4, 0xB0] : GoString) ∉ filterAndSortCommands unicodeToLower C (ascii "x") :=
  ⟨by decide, by decide, fun C hmem =>
    absurd ((mem_filterAndSortCommands unicodeToLower C (ascii "x") (by decide) _).1 hmem).2
      (by decide)⟩

end Gistory
